import Mathlib

/-!
Shallow embedding of the `uscan` lexical scanner (`src/scanner.rs`).

Modelling conventions:
* Rust `char` is Lean `Char`; the decoded source `Vec<char>` is `List Char`.
* Rust `usize` arithmetic is `Nat`; the debug-checked subtractions in the
  source (`source_len - 2`, `multi_end.len() - 1`, `self.current - self.start`,
  ...) are modelled by `subM`, which panics when the subtraction would
  underflow, exactly like a debug build.
* Rust `&str` is Lean `String`; `str::len()` (a byte count) is `strByteLen`,
  while `s.chars()` is `s.data`.
* Out-of-range `Vec` indexing and slicing panic; they are modelled by `idxM`
  and `sliceM` inside the `M` monad, whose failures are either a `ScanError`
  propagated through `?` together with the mutated output record, or a panic.
* The `f64` numeric payload of `NumberLiteral` is floating point and is not
  modelled; the literal text (which determines every claim below) is kept.
* The `run` loop is modelled with explicit fuel (`runLoop`); `none` means the
  fuel was exhausted, so non-termination of the Rust loop corresponds to
  `runLoop` returning `none` for every fuel.
-/

inductive ScanError where
  | UnknownToken (line offset : Nat)
  | UnexpectedEof (line offset : Nat)
deriving DecidableEq, Repr

inductive TokenType where
  | Symbol (s : String)
  | Identifier (s : String)
  | StringLiteral (s : String)
  | NumberLiteral (s : String)
  | Keyword (s : String)
  | Comment (s : String)
  | Ignore
  | NewLine
  | Eof
  | Unknown
deriving DecidableEq, Repr

structure ScannerData where
  source : List Char := []
  token_types : List TokenType := []
  token_lines : List Nat := []
  token_start : List Nat := []
  token_len : List Nat := []
deriving DecidableEq, Repr

structure Scanner where
  start : Nat := 0
  current : Nat := 0
  line : Nat := 0
deriving DecidableEq, Repr

structure ScannerConfig where
  keywords : List String
  symbols : List String
  single_line_cmt : Option String
  multi_line_cmt_start : Option String
  multi_line_cmt_end : Option String

def is_digit (c : Char) : Bool := '0' ≤ c && c ≤ '9'

def is_alpha (c : Char) : Bool := ('a' ≤ c && c ≤ 'z') || ('A' ≤ c && c ≤ 'Z') || c = '_'

def is_alphanum (c : Char) : Bool := is_digit c || is_alpha c

def is_space (c : Char) : Bool := c = ' ' || c = '\t' || c = '\r'

/-- Rust `str::len()`: the UTF-8 byte length of a string. -/
def byteLenAux : List Char → Nat
  | [] => 0
  | c :: cs => c.utf8Size + byteLenAux cs

def strByteLen (s : String) : Nat := byteLenAux s.data

/-- Outcome of a run: `Ok(())`, `Err(e)` (the output record is observable in
both cases, since the caller passed it by `&mut`), or a panic. -/
inductive RunResult where
  | ok (data : ScannerData)
  | err (e : ScanError) (data : ScannerData)
  | panic (data : ScannerData)
deriving DecidableEq, Repr

inductive ScanFail where
  | err (e : ScanError) (data : ScannerData)
  | panic (data : ScannerData)
deriving DecidableEq, Repr

abbrev M (α : Type) := Except ScanFail α

deriving instance DecidableEq for Except

/-- Checked `Vec` indexing: `data.source[i]`, panicking out of range. -/
def idxM (data : ScannerData) (i : Nat) : M Char :=
  if h : i < data.source.length then .ok data.source[i] else .error (.panic data)

/-- Checked `usize` subtraction `a - b` (debug semantics: underflow panics). -/
def subM (data : ScannerData) (a b : Nat) : M Nat :=
  if b ≤ a then .ok (a - b) else .error (.panic data)

/-- Checked slice `data.source[a..b]` (panics if `a > b` or `b > len`). -/
def sliceM (data : ScannerData) (a b : Nat) : M (List Char) :=
  if a ≤ b ∧ b ≤ data.source.length then .ok ((data.source.drop a).take (b - a))
  else .error (.panic data)

/-- `Scanner::matches` inner loop: compare `s` char by char at `pos`,
stopping at the first out-of-range index or mismatch. -/
def matchesFrom (source : List Char) (pos : Nat) : List Char → Bool
  | [] => true
  | c :: cs =>
    if h : pos < source.length then
      if source[pos] = c then matchesFrom source (pos + 1) cs else false
    else false

def Scanner.matches (st : Scanner) (s : String) (data : ScannerData) : Bool :=
  matchesFrom data.source st.current s.data

/-- `while self.current < len && is_space(source[self.current])`.  The `gas`
parameter makes the recursion structural; every caller passes
`source.length - cur`, which never runs out: the `0` case can fire only with
`cur ≥ source.length`, where it returns the same value as the loop exit. -/
def spaceEndGo (source : List Char) : Nat → Nat → Nat
  | 0, cur => cur
  | gas + 1, cur =>
    if h : cur < source.length then
      if is_space source[cur] then spaceEndGo source gas (cur + 1) else cur
    else cur

def spaceEnd (source : List Char) (cur : Nat) : Nat :=
  spaceEndGo source (source.length - cur) cur

def scan_space (st : Scanner) (data : ScannerData) : Option TokenType × Scanner :=
  let stop := spaceEnd data.source st.current
  if st.current = stop then (none, st)
  else (some .Ignore, { st with current := stop })

def scan_newline (st : Scanner) (data : ScannerData) : M (Option TokenType × Scanner) :=
  match idxM data st.current with
  | .error f => .error f
  | .ok c =>
    if c = '\n' then
      .ok (some .NewLine, { st with current := st.current + 1, line := st.line + 1 })
    else .ok (none, st)

def scan_symbol_list (st : Scanner) (data : ScannerData) :
    List String → Option TokenType × Scanner
  | [] => (none, st)
  | s :: rest =>
    if st.matches s data then
      (some (.Symbol s), { st with current := st.current + strByteLen s })
    else scan_symbol_list st data rest

def scan_symbol (st : Scanner) (data : ScannerData) (config : ScannerConfig) :
    Option TokenType × Scanner :=
  scan_symbol_list st data config.symbols

def scan_keyword_list (st : Scanner) (data : ScannerData) :
    List String → Option TokenType × Scanner
  | [] => (none, st)
  | s :: rest =>
    let keyword_len := strByteLen s
    if st.matches s data ∧
        (data.source.length ≤ st.current + keyword_len ∨
          is_alphanum (data.source.getD (st.current + keyword_len) ' ') = false) then
      (some (.Keyword s), { st with current := st.current + keyword_len })
    else scan_keyword_list st data rest

def scan_keyword (st : Scanner) (data : ScannerData) (config : ScannerConfig) :
    Option TokenType × Scanner :=
  scan_keyword_list st data config.keywords

/-- Result of the `scan_string` main loop: the closing quote was found, or
end of input was reached first. -/
inductive StrRes where
  | closed (value : List Char) (cur line : Nat)
  | eof (value : List Char) (cur line : Nat)
deriving DecidableEq, Repr

def strGo (source : List Char) : Nat → Nat → Bool → List Char → Nat → StrRes
  | 0, cur, _, value, line => .eof value cur line
  | gas + 1, cur, escape, value, line =>
    if h : cur < source.length then
      let c := source[cur]
      if c = '\\' && !escape then
        strGo source gas (cur + 1) true value line
      else if c = '"' && !escape then
        .closed value (cur + 1) line
      else if c = 'n' && escape then
        strGo source gas (cur + 1) false (value ++ ['\n']) line
      else if c = 't' && escape then
        strGo source gas (cur + 1) false (value ++ ['\t']) line
      else
        strGo source gas (cur + 1) false (value ++ [c])
          (if c = '\n' then line + 1 else line)
    else .eof value cur line

def scan_string_loop (source : List Char) (cur : Nat) (escape : Bool)
    (value : List Char) (line : Nat) : StrRes :=
  strGo source (source.length - cur) cur escape value line

def scan_string (st : Scanner) (data : ScannerData) : M (Option TokenType × Scanner) :=
  match idxM data st.current with
  | .error f => .error f
  | .ok c =>
    if c = '"' then
      match scan_string_loop data.source (st.current + 1) false [] st.line with
      | .closed value cur line =>
        .ok (some (.StringLiteral (String.mk value)), { st with current := cur, line := line })
      | .eof value _ line =>
        match subM data data.source.length st.start with
        | .error f => .error f
        | .ok d =>
          let data' : ScannerData := { data with
            token_len := data.token_len ++ [d + 1],
            token_start := data.token_start ++ [st.start],
            token_types := data.token_types ++ [TokenType.StringLiteral (String.mk value)],
            token_lines := data.token_lines ++ [line] }
          .error (.err (.UnexpectedEof line st.start) data')
    else .ok (none, st)

/-- `while self.current < len && is_alphanum(source[self.current])`, pushing
the consumed characters onto `value`. -/
def identGo (source : List Char) : Nat → Nat → List Char → List Char × Nat
  | 0, cur, value => (value, cur)
  | gas + 1, cur, value =>
    if h : cur < source.length then
      if is_alphanum source[cur] then identGo source gas (cur + 1) (value ++ [source[cur]])
      else (value, cur)
    else (value, cur)

def identLoop (source : List Char) (cur : Nat) (value : List Char) : List Char × Nat :=
  identGo source (source.length - cur) cur value

def scan_identifier (st : Scanner) (data : ScannerData) : M (Option TokenType × Scanner) :=
  match idxM data st.current with
  | .error f => .error f
  | .ok c =>
    if is_alpha c then
      let r := identLoop data.source st.current []
      .ok (some (.Identifier (String.mk r.1)), { st with current := r.2 })
    else .ok (none, st)

/-- Digit-accumulation loop shared by the integer and fractional parts of
`scan_number` (the `f64` accumulation is not modelled). -/
def decGo (source : List Char) : Nat → Nat → List Char → List Char × Nat
  | 0, cur, value => (value, cur)
  | gas + 1, cur, value =>
    if h : cur < source.length then
      if is_digit source[cur] then decGo source gas (cur + 1) (value ++ [source[cur]])
      else (value, cur)
    else (value, cur)

def decDigits (source : List Char) (cur : Nat) (value : List Char) : List Char × Nat :=
  decGo source (source.length - cur) cur value

/-- The `loop` of `scan_binary_number`: unguarded first access, then the
`'0' | '1'` match, then `if current == len break`. -/
def binGo (data : ScannerData) : Nat → Nat → List Char → M (List Char × Nat)
  | 0, _, _ => .error (.panic data)
  | gas + 1, cur, value =>
    if h : cur < data.source.length then
      let c := data.source[cur]
      if c = '0' || c = '1' then
        let value' := value ++ [c]
        if cur + 1 = data.source.length then .ok (value', cur + 1)
        else binGo data gas (cur + 1) value'
      else .ok (value, cur)
    else .error (.panic data)

def binLoop (data : ScannerData) (cur : Nat) (value : List Char) : M (List Char × Nat) :=
  binGo data (data.source.length - cur) cur value

def hexDigit (c : Char) : Bool :=
  is_digit c || (('a' ≤ c && c ≤ 'f') || ('A' ≤ c && c ≤ 'F'))

def hexGo (data : ScannerData) : Nat → Nat → List Char → M (List Char × Nat)
  | 0, _, _ => .error (.panic data)
  | gas + 1, cur, value =>
    if h : cur < data.source.length then
      let c := data.source[cur]
      if hexDigit c then
        let value' := value ++ [c]
        if cur + 1 = data.source.length then .ok (value', cur + 1)
        else hexGo data gas (cur + 1) value'
      else .ok (value, cur)
    else .error (.panic data)

def hexLoop (data : ScannerData) (cur : Nat) (value : List Char) : M (List Char × Nat) :=
  hexGo data (data.source.length - cur) cur value

def scan_binary_number (st : Scanner) (data : ScannerData) : M (Option TokenType × Scanner) :=
  match binLoop data st.current [] with
  | .error f => .error f
  | .ok r => .ok (some (.NumberLiteral ("0b" ++ String.mk r.1)), { st with current := r.2 })

def scan_hex_number (st : Scanner) (data : ScannerData) : M (Option TokenType × Scanner) :=
  match hexLoop data st.current [] with
  | .error f => .error f
  | .ok r => .ok (some (.NumberLiteral ("0x" ++ String.mk r.1)), { st with current := r.2 })

/-- The decimal tail of `scan_number`: integer digits, then optionally a
fractional part when `.` is immediately followed by a digit. -/
def scan_number_dec (st : Scanner) (data : ScannerData) : M (Option TokenType × Scanner) :=
  let r := decDigits data.source st.current []
  let value := r.1
  let cur := r.2
  match subM data data.source.length 1 with
  | .error f => .error f
  | .ok d1 =>
    if cur < d1 then
      match idxM data cur, idxM data (cur + 1) with
      | .error f, _ => .error f
      | .ok _, .error f => .error f
      | .ok cc, .ok cn =>
        if cc = '.' ∧ is_digit cn = true then
          let r2 := decDigits data.source (cur + 1) (value ++ ['.'])
          .ok (some (.NumberLiteral (String.mk r2.1)), { st with current := r2.2 })
        else .ok (some (.NumberLiteral (String.mk value)), { st with current := cur })
    else .ok (some (.NumberLiteral (String.mk value)), { st with current := cur })

def scan_number (st : Scanner) (data : ScannerData) : M (Option TokenType × Scanner) :=
  match idxM data st.current with
  | .error f => .error f
  | .ok c =>
    if is_digit c then
      match subM data data.source.length 2 with
      | .error f => .error f
      | .ok d2 =>
        if st.current < d2 then
          match idxM data (st.current + 1) with
          | .error f => .error f
          | .ok c1 =>
            if c1 = 'x' || c1 = 'X' then
              scan_hex_number { st with current := st.current + 2 } data
            else if c1 = 'b' || c1 = 'B' then
              scan_binary_number { st with current := st.current + 2 } data
            else scan_number_dec st data
        else scan_number_dec st data
    else .ok (none, st)

/-- `while self.current < len && source[self.current] != '\n'`. -/
def lineEndGo (source : List Char) : Nat → Nat → Nat
  | 0, cur => cur
  | gas + 1, cur =>
    if h : cur < source.length then
      if source[cur] = '\n' then cur else lineEndGo source gas (cur + 1)
    else cur

def lineEnd (source : List Char) (cur : Nat) : Nat :=
  lineEndGo source (source.length - cur) cur

def scan_single_line_comment (st : Scanner) (data : ScannerData) :
    M (Option TokenType × Scanner) :=
  let stop := lineEnd data.source st.current
  let cur := stop + 1
  match sliceM data st.start (cur - 1) with
  | .error f => .error f
  | .ok text =>
    .ok (some (.Comment (String.mk text)), { st with current := cur, line := st.line + 1 })

/-- The main loop of `scan_multi_line_comment`.  Returns the comment text on
reaching the matching end marker at depth zero, or `none` at end of input,
together with the final `current` and `line`. -/
def mlcGo (data : ScannerData) (ms me : String) (start : Nat) :
    Nat → Nat → Nat → Int → Bool → Bool → M (Option (List Char) × Nat × Nat)
  | 0, cur, line, _, _, _ => .ok (none, cur, line)
  | gas + 1, cur, line, level, in_string, escape =>
    if h : cur < data.source.length then
      let c := data.source[cur]
      if c = '\n' then
        mlcGo data ms me start gas (cur + 1) (line + 1) level in_string escape
      else if c = '\\' && !escape then
        mlcGo data ms me start gas (cur + 1) line level in_string true
      else if c = '"' && !escape then
        mlcGo data ms me start gas (cur + 1) line level (!in_string) false
      else if in_string then
        mlcGo data ms me start gas (cur + 1) line level in_string false
      else if matchesFrom data.source cur me.data then
        match subM data (strByteLen me) 1 with
        | .error f => .error f
        | .ok d =>
          let cur2 := cur + d
          if level - 1 = 0 then
            match subM data cur2 1 with
            | .error f => .error f
            | .ok e =>
              match sliceM data start e with
              | .error f => .error f
              | .ok text => .ok (some text, cur2, line)
          else mlcGo data ms me start gas (cur2 + 1) line (level - 1) in_string false
      else if matchesFrom data.source cur ms.data then
        match subM data (strByteLen ms) 1 with
        | .error f => .error f
        | .ok d => mlcGo data ms me start gas (cur + d + 1) line (level + 1) in_string false
      else mlcGo data ms me start gas (cur + 1) line level in_string false
    else .ok (none, cur, line)

def mlcLoop (data : ScannerData) (ms me : String) (start : Nat)
    (cur line : Nat) (level : Int) (in_string escape : Bool) :
    M (Option (List Char) × Nat × Nat) :=
  mlcGo data ms me start (data.source.length - cur) cur line level in_string escape

def scan_multi_line_comment (st : Scanner) (ms me : String) (data : ScannerData) :
    M (Option TokenType × Scanner) :=
  match mlcLoop data ms me st.start st.current st.line 0 false false with
  | .error f => .error f
  | .ok (some text, cur, line) =>
    .ok (some (.Comment (String.mk text)), { st with current := cur, line := line })
  | .ok (none, cur, line) => .ok (none, { st with current := cur, line := line })

def scan_comment_single (st : Scanner) (data : ScannerData) (config : ScannerConfig) :
    M (Option TokenType × Scanner) :=
  match config.single_line_cmt with
  | some single_start =>
    if st.matches single_start data then scan_single_line_comment st data
    else .ok (none, st)
  | none => .ok (none, st)

def scan_comment (st : Scanner) (data : ScannerData) (config : ScannerConfig) :
    M (Option TokenType × Scanner) :=
  match config.multi_line_cmt_start, config.multi_line_cmt_end with
  | some multi_start, some multi_end =>
    if st.matches multi_start data then scan_multi_line_comment st multi_start multi_end data
    else scan_comment_single st data config
  | _, _ => scan_comment_single st data config

def scan_token (st : Scanner) (data : ScannerData) (config : ScannerConfig) :
    M (TokenType × Scanner) :=
  if data.source.length ≤ st.current then
    .ok (.Eof, st)
  else
    match scan_comment st data config with
    | .error f => .error f
    | .ok (some t, st1) => .ok (t, st1)
    | .ok (none, st1) =>
      match scan_newline st1 data with
      | .error f => .error f
      | .ok (some t, st2) => .ok (t, st2)
      | .ok (none, st2) =>
        match scan_space st2 data with
        | (some t, st3) => .ok (t, st3)
        | (none, st3) =>
          match scan_symbol st3 data config with
          | (some t, st4) => .ok (t, st4)
          | (none, st4) =>
            match scan_keyword st4 data config with
            | (some t, st5) => .ok (t, st5)
            | (none, st5) =>
              match scan_string st5 data with
              | .error f => .error f
              | .ok (some t, st6) => .ok (t, st6)
              | .ok (none, st6) =>
                match scan_identifier st6 data with
                | .error f => .error f
                | .ok (some t, st7) => .ok (t, st7)
                | .ok (none, st7) =>
                  match scan_number st7 data with
                  | .error f => .error f
                  | .ok (some t, st8) => .ok (t, st8)
                  | .ok (none, st8) =>
                    let data' : ScannerData := { data with
                      token_len := data.token_len ++ [1],
                      token_start := data.token_start ++ [st8.current],
                      token_types := data.token_types ++ [TokenType.Unknown],
                      token_lines := data.token_lines ++ [st8.line] }
                    .error (.err (.UnknownToken st8.line st8.current) data')

def add_token (st : Scanner) (token : TokenType) (data : ScannerData) :
    M (Scanner × ScannerData) :=
  match subM data st.current st.start with
  | .error f => .error f
  | .ok len =>
    .ok ({ st with start := st.current },
      { data with
        token_start := data.token_start ++ [st.start],
        token_len := data.token_len ++ [len],
        token_types := data.token_types ++ [token],
        token_lines := data.token_lines ++ [st.line] })

/-- The `while !exit` loop of `Scanner::run`, with explicit fuel.  `none`
means the fuel ran out (the Rust loop is still running). -/
def runLoop (config : ScannerConfig) : Nat → Scanner → ScannerData → Option RunResult
  | 0, _, _ => none
  | fuel + 1, st, data =>
    match scan_token st data config with
    | .error (.err e d) => some (.err e d)
    | .error (.panic d) => some (.panic d)
    | .ok (.Eof, _) => some (.ok data)
    | .ok (.Ignore, st') => runLoop config fuel { st' with start := st'.current } data
    | .ok (.NewLine, st') => runLoop config fuel st' data
    | .ok (t, st') =>
      match add_token st' t data with
      | .error (.err e d) => some (.err e d)
      | .error (.panic d) => some (.panic d)
      | .ok (st'', data') => runLoop config fuel st'' data'

/-- `Scanner::run`: decode the source, reset the cursor, then loop. -/
def Scanner.runWith (fuel : Nat) (source : String) (config : ScannerConfig)
    (data : ScannerData) : Option RunResult :=
  runLoop config fuel { start := 0, current := 0, line := 1 } { data with source := source.data }

/-- The Lua-like configuration used by the repository's tests. -/
def LUA_CONFIG : ScannerConfig := {
  keywords := ["and", "break", "do", "else", "elseif", "end", "false", "for", "function",
    "if", "in", "local", "nil", "not", "or", "repeat", "return", "then", "true",
    "until", "while"],
  symbols := ["...", "..", "==", "~=", "<=", ">=", "+", "-", "*", "/", "%", "^", "#",
    "<", ">", "=", "(", ")", "\x7b", "\x7d", "[", "]", ";", ":", ",", "."],
  single_line_cmt := some "--",
  multi_line_cmt_start := some "--[[",
  multi_line_cmt_end := some "]]" }

/-! ### Basic characterisations -/

/-- The four token-attribute sequences have equal length. -/
def ScannerData.sync (d : ScannerData) : Prop :=
  d.token_types.length = d.token_len.length ∧
  d.token_start.length = d.token_len.length ∧
  d.token_lines.length = d.token_len.length

/-- The lockstep invariant, as observed on a run's outcome. -/
def RunResult.sync : RunResult → Prop
  | .ok d => d.sync
  | .err _ d => d.sync
  | .panic _ => True

/-- One row appended to all four token-attribute sequences. -/
def ScannerData.pushRow (data : ScannerData) (len start : Nat) (t : TokenType)
    (line : Nat) : ScannerData :=
  { data with
    token_len := data.token_len ++ [len],
    token_start := data.token_start ++ [start],
    token_types := data.token_types ++ [t],
    token_lines := data.token_lines ++ [line] }

theorem ScannerData.pushRow_sync {data : ScannerData} (h : data.sync)
    (len start : Nat) (t : TokenType) (line : Nat) : (data.pushRow len start t line).sync := by
  obtain ⟨h1, h2, h3⟩ := h
  refine ⟨?_, ?_, ?_⟩ <;> simp [pushRow, h1, h2, h3]

theorem idxM_ok_lt {data : ScannerData} {i : Nat} {c : Char}
    (h : idxM data i = .ok c) : i < data.source.length := by
  unfold idxM at h
  split at h
  · assumption
  · exact absurd h (by simp)

theorem idxM_ok_get {data : ScannerData} {i : Nat} {c : Char}
    (h : idxM data i = .ok c) : data.source.getD i ' ' = c := by
  unfold idxM at h
  split at h
  · injection h with h
    simp [List.getD_eq_getElem, *]
  · exact absurd h (by simp)

theorem idxM_err {data : ScannerData} {i : Nat} {f : ScanFail}
    (h : idxM data i = .error f) : f = .panic data ∧ data.source.length ≤ i := by
  unfold idxM at h
  split at h
  · exact absurd h (by simp)
  · exact ⟨by injection h with h; exact h.symm, by omega⟩

theorem idxM_of_lt {data : ScannerData} {i : Nat} (h : i < data.source.length) :
    idxM data i = .ok data.source[i] := by
  unfold idxM
  rw [dif_pos h]

theorem subM_ok {data : ScannerData} {a b r : Nat}
    (h : subM data a b = .ok r) : b ≤ a ∧ r = a - b := by
  unfold subM at h
  split at h
  · exact ⟨by assumption, by injection h with h; exact h.symm⟩
  · exact absurd h (by simp)

theorem subM_err {data : ScannerData} {a b : Nat} {f : ScanFail}
    (h : subM data a b = .error f) : f = .panic data ∧ a < b := by
  unfold subM at h
  split at h
  · exact absurd h (by simp)
  · exact ⟨by injection h with h; exact h.symm, by omega⟩

theorem subM_of_le {data : ScannerData} {a b : Nat} (h : b ≤ a) :
    subM data a b = .ok (a - b) := by
  unfold subM
  rw [if_pos h]

theorem sliceM_ok {data : ScannerData} {a b : Nat} {l : List Char}
    (h : sliceM data a b = .ok l) :
    a ≤ b ∧ b ≤ data.source.length ∧ l = (data.source.drop a).take (b - a) := by
  unfold sliceM at h
  split at h
  · exact ⟨by tauto, by tauto, by injection h with h; exact h.symm⟩
  · exact absurd h (by simp)

theorem sliceM_err {data : ScannerData} {a b : Nat} {f : ScanFail}
    (h : sliceM data a b = .error f) : f = .panic data := by
  unfold sliceM at h
  split at h
  · exact absurd h (by simp)
  · injection h with h
    exact h.symm

theorem matchesFrom_spec {source : List Char} :
    ∀ {l : List Char} {pos : Nat}, matchesFrom source pos l = true →
      (source.drop pos).take l.length = l ∧ (l ≠ [] → pos + l.length ≤ source.length) := by
  intro l
  induction l with
  | nil => intro pos _; exact ⟨by simp, fun h => absurd rfl h⟩
  | cons c cs ih =>
    intro pos h
    unfold matchesFrom at h
    split at h
    · split at h
      · rename_i hlt hc
        obtain ⟨h1, h2⟩ := ih h
        have hd : source.drop pos = c :: source.drop (pos + 1) := by
          rw [List.drop_eq_getElem_cons hlt, hc]
        refine ⟨?_, fun _ => ?_⟩
        · rw [hd]
          simpa using h1
        · rcases cs with _ | ⟨d, ds⟩
          · simpa using hlt
          · have := h2 (by simp)
            simp at this ⊢
            omega
      · exact absurd h (by simp)
    · exact absurd h (by simp)

/-! ### Loop monotonicity and error shapes -/

theorem spaceEndGo_ge (source : List Char) :
    ∀ gas cur, cur ≤ spaceEndGo source gas cur := by
  intro gas
  induction gas with
  | zero => intro cur; exact Nat.le_refl cur
  | succ gas ih =>
    intro cur
    unfold spaceEndGo
    split
    · split
      · exact le_trans (by omega) (ih (cur + 1))
      · exact Nat.le_refl cur
    · exact Nat.le_refl cur

theorem spaceEnd_ge (source : List Char) (cur : Nat) : cur ≤ spaceEnd source cur :=
  spaceEndGo_ge source _ cur

theorem spaceEndGo_le (source : List Char) :
    ∀ gas cur, cur ≤ source.length → spaceEndGo source gas cur ≤ source.length := by
  intro gas
  induction gas with
  | zero => intro cur hc; exact hc
  | succ gas ih =>
    intro cur hc
    unfold spaceEndGo
    split
    · split
      · exact ih (cur + 1) (by omega)
      · exact hc
    · exact hc

theorem spaceEnd_le (source : List Char) (cur : Nat) (hc : cur ≤ source.length) :
    spaceEnd source cur ≤ source.length :=
  spaceEndGo_le source _ cur hc

theorem spaceEndGo_spaces (source : List Char) :
    ∀ gas cur i, cur ≤ i → i < spaceEndGo source gas cur → ∀ (h : i < source.length),
      is_space source[i] = true := by
  intro gas
  induction gas with
  | zero =>
    intro cur i hge hlt
    unfold spaceEndGo at hlt
    omega
  | succ gas ih =>
    intro cur i hge hlt hi
    unfold spaceEndGo at hlt
    split at hlt
    · split at hlt
      · rcases Nat.eq_or_lt_of_le hge with heq | hgt
        · subst heq; assumption
        · exact ih (cur + 1) i hgt hlt hi
      · omega
    · omega

theorem spaceEnd_spaces (source : List Char) (cur : Nat) :
    ∀ i, cur ≤ i → i < spaceEnd source cur → ∀ (h : i < source.length),
      is_space source[i] = true :=
  spaceEndGo_spaces source _ cur

theorem lineEndGo_ge (source : List Char) :
    ∀ gas cur, cur ≤ lineEndGo source gas cur := by
  intro gas
  induction gas with
  | zero => intro cur; exact Nat.le_refl cur
  | succ gas ih =>
    intro cur
    unfold lineEndGo
    split
    · split
      · exact Nat.le_refl cur
      · exact le_trans (by omega) (ih (cur + 1))
    · exact Nat.le_refl cur

theorem lineEnd_ge (source : List Char) (cur : Nat) : cur ≤ lineEnd source cur :=
  lineEndGo_ge source _ cur

theorem lineEndGo_le (source : List Char) :
    ∀ gas cur, cur ≤ source.length → lineEndGo source gas cur ≤ source.length := by
  intro gas
  induction gas with
  | zero => intro cur hc; exact hc
  | succ gas ih =>
    intro cur hc
    unfold lineEndGo
    split
    · split
      · omega
      · exact ih (cur + 1) (by omega)
    · exact hc

theorem lineEnd_le (source : List Char) (cur : Nat) (hc : cur ≤ source.length) :
    lineEnd source cur ≤ source.length :=
  lineEndGo_le source _ cur hc

theorem identGo_ge (source : List Char) :
    ∀ gas cur value, cur ≤ (identGo source gas cur value).2 := by
  intro gas
  induction gas with
  | zero => intro cur value; exact Nat.le_refl cur
  | succ gas ih =>
    intro cur value
    unfold identGo
    split
    · split
      · exact le_trans (by omega) (ih (cur + 1) _)
      · exact Nat.le_refl cur
    · exact Nat.le_refl cur

theorem identLoop_ge (source : List Char) (cur : Nat) (value : List Char) :
    cur ≤ (identLoop source cur value).2 :=
  identGo_ge source _ cur value

theorem identGo_le (source : List Char) :
    ∀ gas cur value, cur ≤ source.length → (identGo source gas cur value).2 ≤ source.length := by
  intro gas
  induction gas with
  | zero => intro cur value hc; exact hc
  | succ gas ih =>
    intro cur value hc
    unfold identGo
    split
    · split
      · exact ih (cur + 1) _ (by omega)
      · exact hc
    · exact hc

theorem identLoop_le (source : List Char) (cur : Nat) (value : List Char)
    (hc : cur ≤ source.length) : (identLoop source cur value).2 ≤ source.length :=
  identGo_le source _ cur value hc

theorem decGo_ge (source : List Char) :
    ∀ gas cur value, cur ≤ (decGo source gas cur value).2 := by
  intro gas
  induction gas with
  | zero => intro cur value; exact Nat.le_refl cur
  | succ gas ih =>
    intro cur value
    unfold decGo
    split
    · split
      · exact le_trans (by omega) (ih (cur + 1) _)
      · exact Nat.le_refl cur
    · exact Nat.le_refl cur

theorem decDigits_ge (source : List Char) (cur : Nat) (value : List Char) :
    cur ≤ (decDigits source cur value).2 :=
  decGo_ge source _ cur value

theorem decGo_le (source : List Char) :
    ∀ gas cur value, cur ≤ source.length → (decGo source gas cur value).2 ≤ source.length := by
  intro gas
  induction gas with
  | zero => intro cur value hc; exact hc
  | succ gas ih =>
    intro cur value hc
    unfold decGo
    split
    · split
      · exact ih (cur + 1) _ (by omega)
      · exact hc
    · exact hc

theorem decDigits_le (source : List Char) (cur : Nat) (value : List Char)
    (hc : cur ≤ source.length) : (decDigits source cur value).2 ≤ source.length :=
  decGo_le source _ cur value hc

theorem decDigits_gt_of_digit (source : List Char) (cur : Nat) (value : List Char)
    (h : cur < source.length) (hd : is_digit source[cur] = true) :
    cur < (decDigits source cur value).2 := by
  unfold decDigits
  obtain ⟨gas, hgas⟩ : ∃ gas, source.length - cur = gas + 1 := ⟨source.length - cur - 1, by omega⟩
  rw [hgas]
  unfold decGo
  rw [dif_pos h, if_pos hd]
  exact lt_of_lt_of_le (by omega) (decGo_ge source gas (cur + 1) _)

theorem strGo_closed (source : List Char) :
    ∀ gas cur escape value line v cur' line',
      strGo source gas cur escape value line = .closed v cur' line' →
      cur < cur' ∧ cur' ≤ source.length := by
  intro gas
  induction gas with
  | zero =>
    intro cur escape value line v cur' line' hr
    exact absurd hr (by simp [strGo])
  | succ gas ih =>
    intro cur escape value line v cur' line' hr
    unfold strGo at hr
    split at hr
    · simp only at hr
      split at hr
      · have := ih _ _ _ _ _ _ _ hr
        omega
      · split at hr
        · injection hr with h1 h2 h3
          rename_i hlt _ _
          omega
        · split at hr
          · have := ih _ _ _ _ _ _ _ hr
            omega
          · split at hr
            · have := ih _ _ _ _ _ _ _ hr
              omega
            · have := ih _ _ _ _ _ _ _ hr
              omega
    · exact absurd hr (by simp)

theorem scan_string_loop_closed (source : List Char) :
    ∀ cur escape value line v cur' line',
      scan_string_loop source cur escape value line = .closed v cur' line' →
      cur < cur' ∧ cur' ≤ source.length := by
  intro cur escape value line v cur' line' hr
  exact strGo_closed source _ cur escape value line v cur' line' hr

theorem strGo_eof (source : List Char) :
    ∀ gas cur escape value line v cur' line',
      strGo source gas cur escape value line = .eof v cur' line' →
      cur ≤ cur' ∧ (source.length - cur ≤ gas → source.length ≤ cur') := by
  intro gas
  induction gas with
  | zero =>
    intro cur escape value line v cur' line' hr
    unfold strGo at hr
    injection hr with h1 h2 h3
    omega
  | succ gas ih =>
    intro cur escape value line v cur' line' hr
    unfold strGo at hr
    split at hr
    · rename_i hlt
      simp only at hr
      split at hr
      · have := ih _ _ _ _ _ _ _ hr
        exact ⟨by omega, fun hg => this.2 (by omega)⟩
      · split at hr
        · exact absurd hr (by simp)
        · split at hr
          · have := ih _ _ _ _ _ _ _ hr
            exact ⟨by omega, fun hg => this.2 (by omega)⟩
          · split at hr
            · have := ih _ _ _ _ _ _ _ hr
              exact ⟨by omega, fun hg => this.2 (by omega)⟩
            · have := ih _ _ _ _ _ _ _ hr
              exact ⟨by omega, fun hg => this.2 (by omega)⟩
    · rename_i hge
      injection hr with h1 h2 h3
      omega
  
theorem scan_string_loop_eof (source : List Char) :
    ∀ cur escape value line v cur' line',
      scan_string_loop source cur escape value line = .eof v cur' line' →
      cur ≤ cur' ∧ source.length ≤ cur' := by
  intro cur escape value line v cur' line' hr
  have := strGo_eof source _ cur escape value line v cur' line' hr
  exact ⟨this.1, this.2 (Nat.le_refl _)⟩

theorem binGo_ok (data : ScannerData) :
    ∀ gas cur value r, binGo data gas cur value = .ok r →
      cur ≤ r.2 ∧ r.2 ≤ data.source.length := by
  intro gas
  induction gas with
  | zero =>
    intro cur value r hr
    exact absurd hr (by simp [binGo])
  | succ gas ih =>
    intro cur value r hr
    unfold binGo at hr
    split at hr
    · simp only at hr
      split at hr
      · split at hr
        · injection hr with hr
          subst hr
          rename_i hlt _ _
          constructor
          · simp
          · simp
            omega
        · have := ih _ _ _ hr
          omega
      · injection hr with hr
        subst hr
        rename_i hlt _
        constructor
        · simp
        · simp
          omega
    · exact absurd hr (by simp)
  
theorem binLoop_ok (data : ScannerData) :
    ∀ cur value r, binLoop data cur value = .ok r →
      cur ≤ r.2 ∧ r.2 ≤ data.source.length := by
  intro cur value r hr
  exact binGo_ok data _ cur value r hr

theorem binGo_err (data : ScannerData) :
    ∀ gas cur value f, binGo data gas cur value = .error f → f = .panic data := by
  intro gas
  induction gas with
  | zero =>
    intro cur value f hr
    unfold binGo at hr
    injection hr with hr
    exact hr.symm
  | succ gas ih =>
    intro cur value f hr
    unfold binGo at hr
    split at hr
    · simp only at hr
      split at hr
      · split at hr
        · exact absurd hr (by simp)
        · exact ih _ _ _ hr
      · exact absurd hr (by simp)
    · injection hr with hr
      exact hr.symm

theorem binLoop_err (data : ScannerData) :
    ∀ cur value f, binLoop data cur value = .error f → f = .panic data := by
  intro cur value f hr
  exact binGo_err data _ cur value f hr

theorem hexGo_ok (data : ScannerData) :
    ∀ gas cur value r, hexGo data gas cur value = .ok r →
      cur ≤ r.2 ∧ r.2 ≤ data.source.length := by
  intro gas
  induction gas with
  | zero =>
    intro cur value r hr
    exact absurd hr (by simp [hexGo])
  | succ gas ih =>
    intro cur value r hr
    unfold hexGo at hr
    split at hr
    · simp only at hr
      split at hr
      · split at hr
        · injection hr with hr
          subst hr
          rename_i hlt _ _
          constructor
          · simp
          · simp
            omega
        · have := ih _ _ _ hr
          omega
      · injection hr with hr
        subst hr
        rename_i hlt _
        constructor
        · simp
        · simp
          omega
    · exact absurd hr (by simp)

theorem hexLoop_ok (data : ScannerData) :
    ∀ cur value r, hexLoop data cur value = .ok r →
      cur ≤ r.2 ∧ r.2 ≤ data.source.length := by
  intro cur value r hr
  exact hexGo_ok data _ cur value r hr

theorem hexGo_err (data : ScannerData) :
    ∀ gas cur value f, hexGo data gas cur value = .error f → f = .panic data := by
  intro gas
  induction gas with
  | zero =>
    intro cur value f hr
    unfold hexGo at hr
    injection hr with hr
    exact hr.symm
  | succ gas ih =>
    intro cur value f hr
    unfold hexGo at hr
    split at hr
    · simp only at hr
      split at hr
      · split at hr
        · exact absurd hr (by simp)
        · exact ih _ _ _ hr
      · exact absurd hr (by simp)
    · injection hr with hr
      exact hr.symm

theorem hexLoop_err (data : ScannerData) :
    ∀ cur value f, hexLoop data cur value = .error f → f = .panic data := by
  intro cur value f hr
  exact hexGo_err data _ cur value f hr

theorem mlcGo_ok (data : ScannerData) (ms me : String) (start : Nat) :
    ∀ gas cur line level in_string escape o cur' line',
      mlcGo data ms me start gas cur line level in_string escape = .ok (o, cur', line') →
      cur ≤ cur' ∧ (o = none → data.source.length - cur ≤ gas → data.source.length ≤ cur') := by
  intro gas
  induction gas with
  | zero =>
    intro cur line level in_string escape o cur' line' hr
    unfold mlcGo at hr
    simp only [Except.ok.injEq, Prod.mk.injEq] at hr
    obtain ⟨ho, hcur, hline⟩ := hr
    subst hcur
    exact ⟨Nat.le_refl _, fun _ hg => by omega⟩
  | succ gas ih =>
    intro cur line level in_string escape o cur' line' hr
    unfold mlcGo at hr
    split at hr
    · rename_i hlt
      simp only at hr
      split at hr
      · have := ih _ _ _ _ _ _ _ _ hr
        exact ⟨by omega, fun ho hg => this.2 ho (by omega)⟩
      · split at hr
        · have := ih _ _ _ _ _ _ _ _ hr
          exact ⟨by omega, fun ho hg => this.2 ho (by omega)⟩
        · split at hr
          · have := ih _ _ _ _ _ _ _ _ hr
            exact ⟨by omega, fun ho hg => this.2 ho (by omega)⟩
          · split at hr
            · have := ih _ _ _ _ _ _ _ _ hr
              exact ⟨by omega, fun ho hg => this.2 ho (by omega)⟩
            · split at hr
              · split at hr
                · exact absurd hr (by simp)
                · split at hr
                  · split at hr
                    · exact absurd hr (by simp)
                    · split at hr
                      · exact absurd hr (by simp)
                      · simp only [Except.ok.injEq, Prod.mk.injEq] at hr
                        obtain ⟨ho, hcur, hline⟩ := hr
                        subst hcur
                        refine ⟨by omega, fun hno => ?_⟩
                        rw [← ho] at hno
                        exact absurd hno (by simp)
                  · have := ih _ _ _ _ _ _ _ _ hr
                    exact ⟨by omega, fun ho hg => this.2 ho (by omega)⟩
              · split at hr
                · split at hr
                  · exact absurd hr (by simp)
                  · have := ih _ _ _ _ _ _ _ _ hr
                    exact ⟨by omega, fun ho hg => this.2 ho (by omega)⟩
                · have := ih _ _ _ _ _ _ _ _ hr
                  exact ⟨by omega, fun ho hg => this.2 ho (by omega)⟩
    · rename_i hge
      simp only [Except.ok.injEq, Prod.mk.injEq] at hr
      obtain ⟨ho, hcur, hline⟩ := hr
      subst hcur
      exact ⟨Nat.le_refl _, fun _ _ => by omega⟩

theorem mlcLoop_ok (data : ScannerData) (ms me : String) (start : Nat) :
    ∀ cur line level in_string escape o cur' line',
      mlcLoop data ms me start cur line level in_string escape = .ok (o, cur', line') →
      cur ≤ cur' ∧ (o = none → data.source.length ≤ cur') := by
  intro cur line level in_string escape o cur' line' hr
  have := mlcGo_ok data ms me start _ cur line level in_string escape o cur' line' hr
  exact ⟨this.1, fun ho => this.2 ho (Nat.le_refl _)⟩

theorem mlcGo_err (data : ScannerData) (ms me : String) (start : Nat) :
    ∀ gas cur line level in_string escape f,
      mlcGo data ms me start gas cur line level in_string escape = .error f →
      f = .panic data := by
  intro gas
  induction gas with
  | zero =>
    intro cur line level in_string escape f hr
    exact absurd hr (by simp [mlcGo])
  | succ gas ih =>
    intro cur line level in_string escape f hr
    unfold mlcGo at hr
    split at hr
    · simp only at hr
      split at hr
      · exact ih _ _ _ _ _ _ hr
      · split at hr
        · exact ih _ _ _ _ _ _ hr
        · split at hr
          · exact ih _ _ _ _ _ _ hr
          · split at hr
            · exact ih _ _ _ _ _ _ hr
            · split at hr
              · split at hr
                · rename_i heq
                  injection hr with hr
                  subst hr
                  exact (subM_err heq).1
                · split at hr
                  · split at hr
                    · rename_i heq
                      injection hr with hr
                      subst hr
                      exact (subM_err heq).1
                    · split at hr
                      · rename_i heq
                        injection hr with hr
                        subst hr
                        exact sliceM_err heq
                      · exact absurd hr (by simp)
                  · exact ih _ _ _ _ _ _ hr
              · split at hr
                · split at hr
                  · rename_i heq
                    injection hr with hr
                    subst hr
                    exact (subM_err heq).1
                  · exact ih _ _ _ _ _ _ hr
                · exact ih _ _ _ _ _ _ hr
    · exact absurd hr (by simp)

theorem mlcLoop_err (data : ScannerData) (ms me : String) (start : Nat) :
    ∀ cur line level in_string escape f,
      mlcLoop data ms me start cur line level in_string escape = .error f →
      f = .panic data := by
  intro cur line level in_string escape f hr
  exact mlcGo_err data ms me start _ cur line level in_string escape f hr

theorem mlcLoop_level0_gt (data : ScannerData) (ms me : String) (start : Nat)
    (cur line : Nat) (in_string escape : Bool) (t : List Char) (cur' line' : Nat)
    (hr : mlcLoop data ms me start cur line 0 in_string escape = .ok (some t, cur', line')) :
    cur < cur' := by
  unfold mlcLoop at hr
  by_cases h : cur < data.source.length
  · obtain ⟨gas, hgas⟩ : ∃ gas, data.source.length - cur = gas + 1 :=
      ⟨data.source.length - cur - 1, by omega⟩
    rw [hgas] at hr
    unfold mlcGo at hr
    rw [dif_pos h] at hr
    simp only at hr
    split at hr
    · have := mlcGo_ok data ms me start _ _ _ _ _ _ _ _ _ hr
      omega
    · split at hr
      · have := mlcGo_ok data ms me start _ _ _ _ _ _ _ _ _ hr
        omega
      · split at hr
        · have := mlcGo_ok data ms me start _ _ _ _ _ _ _ _ _ hr
          omega
        · split at hr
          · have := mlcGo_ok data ms me start _ _ _ _ _ _ _ _ _ hr
            omega
          · split at hr
            · split at hr
              · exact absurd hr (by simp)
              · split at hr
                · rename_i hlvl
                  exact absurd hlvl (by decide)
                · have := mlcGo_ok data ms me start _ _ _ _ _ _ _ _ _ hr
                  omega
            · split at hr
              · split at hr
                · exact absurd hr (by simp)
                · have := mlcGo_ok data ms me start _ _ _ _ _ _ _ _ _ hr
                  omega
              · have := mlcGo_ok data ms me start _ _ _ _ _ _ _ _ _ hr
                omega
  · have hz : data.source.length - cur = 0 := by omega
    rw [hz] at hr
    unfold mlcGo at hr
    simp at hr

theorem scan_newline_none {st st' : Scanner} {data : ScannerData}
    (h : scan_newline st data = .ok (none, st')) : st' = st := by
  unfold scan_newline at h
  split at h
  · exact absurd h (by simp)
  · split at h
    · exact absurd h (by simp)
    · simp only [Except.ok.injEq, Prod.mk.injEq] at h
      exact h.2.symm

theorem scan_newline_some {st st' : Scanner} {data : ScannerData} {t : TokenType}
    (h : scan_newline st data = .ok (some t, st')) :
    t = .NewLine ∧ st' = { st with current := st.current + 1, line := st.line + 1 } := by
  unfold scan_newline at h
  split at h
  · exact absurd h (by simp)
  · split at h
    · simp only [Except.ok.injEq, Prod.mk.injEq, Option.some.injEq] at h
      exact ⟨h.1.symm, h.2.symm⟩
    · exact absurd h (by simp)

theorem scan_newline_err {st : Scanner} {data : ScannerData} {f : ScanFail}
    (h : scan_newline st data = .error f) :
    f = .panic data ∧ data.source.length ≤ st.current := by
  unfold scan_newline at h
  split at h
  · rename_i heq
    injection h with h
    subst h
    exact idxM_err heq
  · split at h
    · exact absurd h (by simp)
    · exact absurd h (by simp)

theorem scan_space_none {st st' : Scanner} {data : ScannerData}
    (h : scan_space st data = (none, st')) : st' = st := by
  unfold scan_space at h
  dsimp only at h
  split at h
  · simp only [Prod.mk.injEq] at h
    exact h.2.symm
  · exact absurd h (by simp)

theorem scan_space_some {st st' : Scanner} {data : ScannerData} {t : TokenType}
    (h : scan_space st data = (some t, st')) :
    t = .Ignore ∧ st' = { st with current := spaceEnd data.source st.current } ∧
      st.current < spaceEnd data.source st.current := by
  unfold scan_space at h
  dsimp only at h
  split at h
  · exact absurd h (by simp)
  · rename_i hne
    simp only [Prod.mk.injEq, Option.some.injEq] at h
    have := spaceEnd_ge data.source st.current
    exact ⟨h.1.symm, h.2.symm, by omega⟩

theorem scan_symbol_list_none {st st' : Scanner} {data : ScannerData} :
    ∀ {L : List String}, scan_symbol_list st data L = (none, st') → st' = st := by
  intro L
  induction L with
  | nil =>
    intro h
    unfold scan_symbol_list at h
    simp only [Prod.mk.injEq] at h
    exact h.2.symm
  | cons s rest ih =>
    intro h
    unfold scan_symbol_list at h
    split at h
    · exact absurd h (by simp)
    · exact ih h

theorem scan_symbol_list_some {st st' : Scanner} {data : ScannerData} {t : TokenType} :
    ∀ {L : List String}, scan_symbol_list st data L = (some t, st') →
      ∃ s ∈ L, st.matches s data = true ∧ t = .Symbol s ∧
        st' = { st with current := st.current + strByteLen s } := by
  intro L
  induction L with
  | nil =>
    intro h
    unfold scan_symbol_list at h
    exact absurd h (by simp)
  | cons s rest ih =>
    intro h
    unfold scan_symbol_list at h
    split at h
    · rename_i hm
      simp only [Prod.mk.injEq, Option.some.injEq] at h
      exact ⟨s, by simp, hm, h.1.symm, h.2.symm⟩
    · obtain ⟨s', hs', hm, ht, hst⟩ := ih h
      exact ⟨s', by simp [hs'], hm, ht, hst⟩

theorem scan_keyword_list_none {st st' : Scanner} {data : ScannerData} :
    ∀ {L : List String}, scan_keyword_list st data L = (none, st') → st' = st := by
  intro L
  induction L with
  | nil =>
    intro h
    unfold scan_keyword_list at h
    simp only [Prod.mk.injEq] at h
    exact h.2.symm
  | cons s rest ih =>
    intro h
    unfold scan_keyword_list at h
    dsimp only at h
    split at h
    · exact absurd h (by simp)
    · exact ih h

theorem scan_keyword_list_some {st st' : Scanner} {data : ScannerData} {t : TokenType} :
    ∀ {L : List String}, scan_keyword_list st data L = (some t, st') →
      ∃ s ∈ L, st.matches s data = true ∧
        (data.source.length ≤ st.current + strByteLen s ∨
          is_alphanum (data.source.getD (st.current + strByteLen s) ' ') = false) ∧
        t = .Keyword s ∧ st' = { st with current := st.current + strByteLen s } := by
  intro L
  induction L with
  | nil =>
    intro h
    unfold scan_keyword_list at h
    exact absurd h (by simp)
  | cons s rest ih =>
    intro h
    unfold scan_keyword_list at h
    dsimp only at h
    split at h
    · rename_i hm
      simp only [Prod.mk.injEq, Option.some.injEq] at h
      exact ⟨s, by simp, hm.1, hm.2, h.1.symm, h.2.symm⟩
    · obtain ⟨s', hs', hm, hb, ht, hst⟩ := ih h
      exact ⟨s', by simp [hs'], hm, hb, ht, hst⟩

theorem scan_string_none {st st' : Scanner} {data : ScannerData}
    (h : scan_string st data = .ok (none, st')) :
    st' = st ∧ ∃ (hlt : st.current < data.source.length), data.source[st.current] ≠ '"' := by
  unfold scan_string at h
  split at h
  · exact absurd h (by simp)
  · rename_i c heq
    split at h
    · split at h
      · exact absurd h (by simp)
      · split at h
        · exact absurd h (by simp)
        · exact absurd h (by simp)
    · rename_i hq
      simp only [Except.ok.injEq, Prod.mk.injEq] at h
      have hlt := idxM_ok_lt heq
      have hc := idxM_ok_get heq
      refine ⟨h.2.symm, hlt, ?_⟩
      rw [List.getD_eq_getElem _ _ hlt] at hc
      rw [hc]
      exact hq

theorem scan_string_some {st st' : Scanner} {data : ScannerData} {t : TokenType}
    (h : scan_string st data = .ok (some t, st')) :
    ∃ value cur line,
      scan_string_loop data.source (st.current + 1) false [] st.line = .closed value cur line ∧
      t = .StringLiteral (String.mk value) ∧
      st' = { st with current := cur, line := line } ∧
      (st.current < data.source.length ∧ data.source.getD st.current ' ' = '"') := by
  unfold scan_string at h
  split at h
  · exact absurd h (by simp)
  · rename_i c heq
    split at h
    · rename_i hq
      split at h
      · rename_i value cur line hloop
        simp only [Except.ok.injEq, Prod.mk.injEq, Option.some.injEq] at h
        have hc := idxM_ok_get heq
        rw [hq] at hc
        exact ⟨value, cur, line, hloop, h.1.symm, h.2.symm, idxM_ok_lt heq, hc⟩
      · split at h
        · exact absurd h (by simp)
        · exact absurd h (by simp)
    · exact absurd h (by simp)

theorem scan_string_err {st : Scanner} {data : ScannerData} {f : ScanFail}
    (h : scan_string st data = .error f) :
    f = .panic data ∨
      ∃ value line, st.start ≤ data.source.length ∧
        f = .err (.UnexpectedEof line st.start)
          (data.pushRow (data.source.length - st.start + 1) st.start
            (.StringLiteral (String.mk value)) line) := by
  unfold scan_string at h
  split at h
  · rename_i heq
    injection h with h
    exact Or.inl ((idxM_err heq).1.symm ▸ h.symm)
  · rename_i c heq
    split at h
    · split at h
      · exact absurd h (by simp)
      · rename_i value cur line hloop
        split at h
        · rename_i hsub
          injection h with h
          exact Or.inl ((subM_err hsub).1.symm ▸ h.symm)
        · rename_i d hsub
          obtain ⟨hle, hd⟩ := subM_ok hsub
          injection h with h
          subst hd
          refine Or.inr ⟨value, line, hle, ?_⟩
          rw [← h]
          rfl
    · exact absurd h (by simp)

theorem scan_identifier_none {st st' : Scanner} {data : ScannerData}
    (h : scan_identifier st data = .ok (none, st')) : st' = st := by
  unfold scan_identifier at h
  split at h
  · exact absurd h (by simp)
  · split at h
    · exact absurd h (by simp)
    · simp only [Except.ok.injEq, Prod.mk.injEq] at h
      exact h.2.symm

theorem scan_identifier_some {st st' : Scanner} {data : ScannerData} {t : TokenType}
    (h : scan_identifier st data = .ok (some t, st')) :
    t = .Identifier (String.mk (identLoop data.source st.current []).1) ∧
    st' = { st with current := (identLoop data.source st.current []).2 } ∧
    st.current < data.source.length ∧ is_alpha (data.source.getD st.current ' ') = true := by
  unfold scan_identifier at h
  split at h
  · exact absurd h (by simp)
  · rename_i c heq
    split at h
    · rename_i ha
      simp only [Except.ok.injEq, Prod.mk.injEq, Option.some.injEq] at h
      have hc := idxM_ok_get heq
      exact ⟨h.1.symm, h.2.symm, idxM_ok_lt heq, by rw [hc]; exact ha⟩
    · exact absurd h (by simp)

theorem scan_identifier_err {st : Scanner} {data : ScannerData} {f : ScanFail}
    (h : scan_identifier st data = .error f) :
    f = .panic data ∧ data.source.length ≤ st.current := by
  unfold scan_identifier at h
  split at h
  · rename_i heq
    injection h with h
    subst h
    exact idxM_err heq
  · split at h
    · exact absurd h (by simp)
    · exact absurd h (by simp)

theorem scan_number_dec_some {st st' : Scanner} {data : ScannerData} {t : TokenType}
    (h : scan_number_dec st data = .ok (some t, st')) :
    st'.start = st.start ∧ st'.line = st.line ∧
    (decDigits data.source st.current []).2 ≤ st'.current ∧
    (st.current ≤ data.source.length → st'.current ≤ data.source.length) := by
  unfold scan_number_dec at h
  dsimp only at h
  split at h
  · exact absurd h (by simp)
  · split at h
    · split at h
      · exact absurd h (by simp)
      · exact absurd h (by simp)
      · split at h
        · simp only [Except.ok.injEq, Prod.mk.injEq, Option.some.injEq] at h
          obtain ⟨-, hst⟩ := h
          subst hst
          refine ⟨rfl, rfl, ?_, ?_⟩
          · have h1 := decDigits_ge data.source ((decDigits data.source st.current []).2 + 1)
              ((decDigits data.source st.current []).1 ++ ['.'])
            simp only
            omega
          · intro hle
            have h2 := decDigits_le data.source ((decDigits data.source st.current []).2 + 1)
              ((decDigits data.source st.current []).1 ++ ['.'])
            rename_i hcn _
            have h3 := idxM_ok_lt hcn
            simp only
            apply h2
            omega
        · simp only [Except.ok.injEq, Prod.mk.injEq, Option.some.injEq] at h
          obtain ⟨-, hst⟩ := h
          subst hst
          have := decDigits_le data.source st.current []
          exact ⟨rfl, rfl, Nat.le_refl _, fun hle => this hle⟩
    · simp only [Except.ok.injEq, Prod.mk.injEq, Option.some.injEq] at h
      obtain ⟨-, hst⟩ := h
      subst hst
      have := decDigits_le data.source st.current []
      exact ⟨rfl, rfl, Nat.le_refl _, fun hle => this hle⟩

theorem scan_number_dec_err {st : Scanner} {data : ScannerData} {f : ScanFail}
    (h : scan_number_dec st data = .error f) : f = .panic data := by
  unfold scan_number_dec at h
  dsimp only at h
  split at h
  · rename_i hsub
    injection h with h
    subst h
    exact (subM_err hsub).1
  · split at h
    · split at h
      · rename_i hidx
        injection h with h
        subst h
        exact (idxM_err hidx).1
      · rename_i hidx
        injection h with h
        subst h
        exact (idxM_err hidx).1
      · split at h
        · exact absurd h (by simp)
        · exact absurd h (by simp)
    · exact absurd h (by simp)

theorem scan_number_dec_not_none {st st' : Scanner} {data : ScannerData} :
    scan_number_dec st data ≠ .ok (none, st') := by
  unfold scan_number_dec
  dsimp only
  split
  · simp
  · split
    · split
      · simp
      · simp
      · split
        · simp
        · simp
    · simp

theorem scan_number_none {st st' : Scanner} {data : ScannerData}
    (h : scan_number st data = .ok (none, st')) : st' = st := by
  unfold scan_number at h
  split at h
  · exact absurd h (by simp)
  · split at h
    · split at h
      · exact absurd h (by simp)
      · split at h
        · split at h
          · exact absurd h (by simp)
          · split at h
            · unfold scan_hex_number at h
              split at h
              · exact absurd h (by simp)
              · exact absurd h (by simp)
            · split at h
              · unfold scan_binary_number at h
                split at h
                · exact absurd h (by simp)
                · exact absurd h (by simp)
              · exact absurd h scan_number_dec_not_none
        · exact absurd h scan_number_dec_not_none
    · simp only [Except.ok.injEq, Prod.mk.injEq] at h
      exact h.2.symm

theorem scan_number_some {st st' : Scanner} {data : ScannerData} {t : TokenType}
    (h : scan_number st data = .ok (some t, st')) :
    st'.start = st.start ∧ st'.line = st.line ∧ st.current < st'.current ∧
    (st.current ≤ data.source.length → st'.current ≤ data.source.length) := by
  unfold scan_number at h
  split at h
  · exact absurd h (by simp)
  · rename_i c heq
    split at h
    · rename_i hdig
      split at h
      · exact absurd h (by simp)
      · split at h
        · split at h
          · exact absurd h (by simp)
          · split at h
            · unfold scan_hex_number at h
              split at h
              · exact absurd h (by simp)
              · rename_i r hhex
                have hb := hexLoop_ok data _ _ _ hhex
                simp only [Except.ok.injEq, Prod.mk.injEq, Option.some.injEq] at h
                obtain ⟨-, hst⟩ := h
                subst hst
                exact ⟨rfl, rfl, by simp at hb ⊢; omega, fun _ => by simp at hb ⊢; omega⟩
            · split at h
              · unfold scan_binary_number at h
                split at h
                · exact absurd h (by simp)
                · rename_i r hbin
                  have hb := binLoop_ok data _ _ _ hbin
                  simp only [Except.ok.injEq, Prod.mk.injEq, Option.some.injEq] at h
                  obtain ⟨-, hst⟩ := h
                  subst hst
                  exact ⟨rfl, rfl, by simp at hb ⊢; omega, fun _ => by simp at hb ⊢; omega⟩
              · have hd := scan_number_dec_some h
                have hlt := idxM_ok_lt heq
                have hc := idxM_ok_get heq
                have hgt : st.current < (decDigits data.source st.current []).2 := by
                  apply decDigits_gt_of_digit data.source st.current [] hlt
                  rw [List.getD_eq_getElem _ _ hlt] at hc
                  rw [hc]
                  exact hdig
                exact ⟨hd.1, hd.2.1, by omega, fun hle => hd.2.2.2 hle⟩
        · have hd := scan_number_dec_some h
          have hlt := idxM_ok_lt heq
          have hc := idxM_ok_get heq
          have hgt : st.current < (decDigits data.source st.current []).2 := by
            apply decDigits_gt_of_digit data.source st.current [] hlt
            rw [List.getD_eq_getElem _ _ hlt] at hc
            rw [hc]
            exact hdig
          exact ⟨hd.1, hd.2.1, by omega, fun hle => hd.2.2.2 hle⟩
    · exact absurd h (by simp)

theorem scan_number_err {st : Scanner} {data : ScannerData} {f : ScanFail}
    (h : scan_number st data = .error f) : f = .panic data := by
  unfold scan_number at h
  split at h
  · rename_i heq
    injection h with h
    subst h
    exact (idxM_err heq).1
  · split at h
    · split at h
      · rename_i hsub
        injection h with h
        subst h
        exact (subM_err hsub).1
      · split at h
        · split at h
          · rename_i hidx
            injection h with h
            subst h
            exact (idxM_err hidx).1
          · split at h
            · unfold scan_hex_number at h
              split at h
              · rename_i hhex
                injection h with h
                subst h
                exact hexLoop_err data _ _ _ hhex
              · exact absurd h (by simp)
            · split at h
              · unfold scan_binary_number at h
                split at h
                · rename_i hbin
                  injection h with h
                  subst h
                  exact binLoop_err data _ _ _ hbin
                · exact absurd h (by simp)
              · exact scan_number_dec_err h
        · exact scan_number_dec_err h
    · exact absurd h (by simp)

theorem scan_single_line_comment_ok {st st' : Scanner} {data : ScannerData}
    {o : Option TokenType} (h : scan_single_line_comment st data = .ok (o, st')) :
    (∃ text, o = some (.Comment text)) ∧
    st' = { st with current := lineEnd data.source st.current + 1, line := st.line + 1 } := by
  unfold scan_single_line_comment at h
  dsimp only at h
  split at h
  · exact absurd h (by simp)
  · rename_i text hsl
    simp only [Except.ok.injEq, Prod.mk.injEq] at h
    exact ⟨⟨String.mk text, h.1.symm⟩, h.2.symm⟩

theorem scan_single_line_comment_err {st : Scanner} {data : ScannerData} {f : ScanFail}
    (h : scan_single_line_comment st data = .error f) : f = .panic data := by
  unfold scan_single_line_comment at h
  dsimp only at h
  split at h
  · rename_i hsl
    injection h with h
    subst h
    exact sliceM_err hsl
  · exact absurd h (by simp)

theorem scan_multi_line_comment_ok {st st' : Scanner} {ms me : String}
    {data : ScannerData} {o : Option TokenType}
    (h : scan_multi_line_comment st ms me data = .ok (o, st')) :
    st'.start = st.start ∧ st.current ≤ st'.current ∧
    ((∃ text, o = some (.Comment text) ∧ st.current < st'.current) ∨
      (o = none ∧ data.source.length ≤ st'.current)) := by
  unfold scan_multi_line_comment at h
  split at h
  · exact absurd h (by simp)
  · rename_i text cur line hml
    have hge := mlcLoop_ok data ms me st.start _ _ _ _ _ _ _ _ hml
    have hgt := mlcLoop_level0_gt data ms me st.start _ _ _ _ _ _ _ hml
    simp only [Except.ok.injEq, Prod.mk.injEq] at h
    obtain ⟨ho, hst⟩ := h
    subst hst
    exact ⟨rfl, by simpa using hge.1, Or.inl ⟨String.mk text, ho.symm, by simpa using hgt⟩⟩
  · rename_i cur line hml
    have hge := mlcLoop_ok data ms me st.start _ _ _ _ _ _ _ _ hml
    simp only [Except.ok.injEq, Prod.mk.injEq] at h
    obtain ⟨ho, hst⟩ := h
    subst hst
    exact ⟨rfl, by simpa using hge.1, Or.inr ⟨ho.symm, by simpa using hge.2 rfl⟩⟩

theorem scan_multi_line_comment_err {st : Scanner} {ms me : String}
    {data : ScannerData} {f : ScanFail}
    (h : scan_multi_line_comment st ms me data = .error f) : f = .panic data := by
  unfold scan_multi_line_comment at h
  split at h
  · rename_i hml
    injection h with h
    subst h
    exact mlcLoop_err data ms me st.start _ _ _ _ _ _ hml
  · exact absurd h (by simp)
  · exact absurd h (by simp)

theorem scan_comment_err {st : Scanner} {data : ScannerData} {config : ScannerConfig}
    {f : ScanFail} (h : scan_comment st data config = .error f) : f = .panic data := by
  unfold scan_comment at h
  have single : ∀ (h' : scan_comment_single st data config = .error f), f = .panic data := by
    intro h'
    unfold scan_comment_single at h'
    split at h'
    · split at h'
      · exact scan_single_line_comment_err h'
      · exact absurd h' (by simp)
    · exact absurd h' (by simp)
  split at h
  · split at h
    · exact scan_multi_line_comment_err h
    · exact single h
  · exact single h

theorem scan_comment_none {st st' : Scanner} {data : ScannerData} {config : ScannerConfig}
    (h : scan_comment st data config = .ok (none, st')) :
    st' = st ∨ (st'.start = st.start ∧ st.current ≤ st'.current ∧
      data.source.length ≤ st'.current) := by
  unfold scan_comment at h
  have single : ∀ (h' : scan_comment_single st data config = .ok (none, st')), st' = st := by
    intro h'
    unfold scan_comment_single at h'
    split at h'
    · split at h'
      · obtain ⟨⟨text, ht⟩, -⟩ := scan_single_line_comment_ok h'
        exact absurd ht (by simp)
      · simp only [Except.ok.injEq, Prod.mk.injEq] at h'
        exact h'.2.symm
    · simp only [Except.ok.injEq, Prod.mk.injEq] at h'
      exact h'.2.symm
  split at h
  · split at h
    · obtain ⟨h1, h2, h3⟩ := scan_multi_line_comment_ok h
      rcases h3 with ⟨text, ht, -⟩ | ⟨-, hlen⟩
      · exact absurd ht (by simp)
      · exact Or.inr ⟨h1, h2, hlen⟩
    · exact Or.inl (single h)
  · exact Or.inl (single h)

theorem scan_comment_some {st st' : Scanner} {data : ScannerData} {config : ScannerConfig}
    {t : TokenType} (h : scan_comment st data config = .ok (some t, st')) :
    st'.start = st.start ∧ st.current < st'.current ∧ ∃ text, t = .Comment text := by
  unfold scan_comment at h
  have single : ∀ (h' : scan_comment_single st data config = .ok (some t, st')),
      st'.start = st.start ∧ st.current < st'.current ∧ ∃ text, t = .Comment text := by
    intro h'
    unfold scan_comment_single at h'
    split at h'
    · split at h'
      · obtain ⟨⟨text, ht⟩, hst⟩ := scan_single_line_comment_ok h'
        injection ht with ht
        subst hst
        have := lineEnd_ge data.source st.current
        exact ⟨rfl, by simpa using by omega, text, ht⟩
      · exact absurd h' (by simp)
    · exact absurd h' (by simp)
  split at h
  · split at h
    · obtain ⟨h1, h2, h3⟩ := scan_multi_line_comment_ok h
      rcases h3 with ⟨text, ht, hgt⟩ | ⟨hn, -⟩
      · injection ht with ht
        exact ⟨h1, hgt, text, ht⟩
      · exact absurd hn (by simp)
    · exact single h
  · exact single h

theorem scan_newline_ok_lt {st : Scanner} {data : ScannerData}
    {r : Option TokenType × Scanner} (h : scan_newline st data = .ok r) :
    st.current < data.source.length := by
  unfold scan_newline at h
  split at h
  · exact absurd h (by simp)
  · rename_i c heq
    exact idxM_ok_lt heq

theorem scan_token_eof {st : Scanner} {data : ScannerData} {config : ScannerConfig}
    (h : data.source.length ≤ st.current) : scan_token st data config = .ok (.Eof, st) := by
  unfold scan_token
  rw [if_pos h]

/-- Any `ScanError` returned by `scan_token` comes either from the unknown-token
fallthrough (a one-character `Unknown` row pushed at the failure offset) or from
the unterminated-string path (a partial `StringLiteral` row). -/
theorem scan_token_err_char {st : Scanner} {data : ScannerData} {config : ScannerConfig}
    {e : ScanError} {d' : ScannerData}
    (h : scan_token st data config = .error (.err e d')) :
    (e = .UnknownToken st.line st.current ∧
      d' = data.pushRow 1 st.current .Unknown st.line) ∨
    (∃ value line, st.start ≤ data.source.length ∧
      e = .UnexpectedEof line st.start ∧
      d' = data.pushRow (data.source.length - st.start + 1) st.start
        (.StringLiteral value) line) := by
  unfold scan_token at h
  split at h
  · exact absurd h (by simp)
  · rename_i hlen
    split at h
    · rename_i f hcmt
      injection h with h
      have := scan_comment_err hcmt
      rw [this] at h
      exact absurd h.symm (by simp)
    · exact absurd h (by simp)
    · rename_i st1 hcmt
      split at h
      · rename_i f hnl
        injection h with h
        have := (scan_newline_err hnl).1
        rw [this] at h
        exact absurd h.symm (by simp)
      · exact absurd h (by simp)
      · rename_i st2 hnl
        have hst1 : st1 = st := by
          rcases scan_comment_none hcmt with h1 | ⟨-, -, hge⟩
          · exact h1
          · have := scan_newline_ok_lt hnl
            omega
        have hst2 : st2 = st := (scan_newline_none hnl).trans hst1
        split at h
        · exact absurd h (by simp)
        · rename_i st3 hsp
          have hst3 : st3 = st := (scan_space_none hsp).trans hst2
          split at h
          · exact absurd h (by simp)
          · rename_i st4 hsym
            have hst4 : st4 = st := (scan_symbol_list_none hsym).trans hst3
            split at h
            · exact absurd h (by simp)
            · rename_i st5 hkw
              have hst5 : st5 = st := (scan_keyword_list_none hkw).trans hst4
              split at h
              · rename_i f hstr
                injection h with h
                subst h
                rcases scan_string_err hstr with hp | ⟨value, line, hle, hf⟩
                · exact absurd hp.symm (by simp)
                · rw [hst5] at hle hf
                  injection hf with he hd
                  exact Or.inr ⟨String.mk value, line, hle, he, hd⟩
              · exact absurd h (by simp)
              · rename_i st6 hstr
                have hst6 : st6 = st := (scan_string_none hstr).1.trans hst5
                split at h
                · rename_i f hid
                  injection h with h
                  have := (scan_identifier_err hid).1
                  rw [this] at h
                  exact absurd h.symm (by simp)
                · exact absurd h (by simp)
                · rename_i st7 hid
                  have hst7 : st7 = st := (scan_identifier_none hid).trans hst6
                  split at h
                  · rename_i f hnum
                    injection h with h
                    have := scan_number_err hnum
                    rw [this] at h
                    exact absurd h.symm (by simp)
                  · exact absurd h (by simp)
                  · rename_i st8 hnum
                    have hst8 : st8 = st := (scan_number_none hnum).trans hst7
                    injection h with h
                    injection h with he hd
                    subst hst8
                    exact Or.inl ⟨he.symm, hd.symm⟩

theorem runLoop_mono (config : ScannerConfig) :
    ∀ m st data r n, runLoop config m st data = some r → m ≤ n →
      runLoop config n st data = some r := by
  intro m
  induction m with
  | zero =>
    intro st data r n h
    simp [runLoop] at h
  | succ m ih =>
    intro st data r n h hn
    obtain ⟨n', rfl⟩ : ∃ n', n = n' + 1 := ⟨n - 1, by omega⟩
    rw [runLoop] at h
    rw [runLoop]
    split at h
    · exact h
    · exact h
    · exact h
    · exact ih _ _ _ _ h (by omega)
    · exact ih _ _ _ _ h (by omega)
    · split at h
      · exact h
      · exact h
      · exact ih _ _ _ _ h (by omega)

theorem add_token_ok {st : Scanner} {t : TokenType} {data : ScannerData}
    {st'' : Scanner} {data' : ScannerData}
    (h : add_token st t data = .ok (st'', data')) :
    st.start ≤ st.current ∧ st'' = { st with start := st.current } ∧
    data' = data.pushRow (st.current - st.start) st.start t st.line := by
  unfold add_token at h
  split at h
  · exact absurd h (by simp)
  · rename_i len hsub
    obtain ⟨hle, hlen⟩ := subM_ok hsub
    simp only [Except.ok.injEq, Prod.mk.injEq] at h
    subst hlen
    exact ⟨hle, h.1.symm, by rw [← h.2]; rfl⟩

theorem add_token_err {st : Scanner} {t : TokenType} {data : ScannerData} {f : ScanFail}
    (h : add_token st t data = .error f) : f = .panic data ∧ st.current < st.start := by
  unfold add_token at h
  split at h
  · rename_i hsub
    injection h with h
    subst h
    exact subM_err hsub
  · exact absurd h (by simp)

/-- The four token-attribute sequences grow in lockstep: any `some` outcome of
the run loop satisfies the length invariant, provided the input record does. -/
theorem runLoop_sync (config : ScannerConfig) :
    ∀ fuel st data r, data.sync → runLoop config fuel st data = some r → r.sync := by
  intro fuel
  induction fuel with
  | zero =>
    intro st data r _ h
    simp [runLoop] at h
  | succ fuel ih =>
    intro st data r hs h
    rw [runLoop] at h
    split at h
    · rename_i heq
      injection h with h
      subst h
      rcases scan_token_err_char heq with ⟨-, hd⟩ | ⟨v, l, -, -, hd⟩
      · exact hd ▸ ScannerData.pushRow_sync hs _ _ _ _
      · exact hd ▸ ScannerData.pushRow_sync hs _ _ _ _
    · injection h with h
      subst h
      trivial
    · injection h with h
      subst h
      exact hs
    · exact ih _ _ _ hs h
    · exact ih _ _ _ hs h
    · split at h
      · rename_i hadd
        have := (add_token_err hadd).1
        exact absurd this (by simp)
      · injection h with h
        subst h
        trivial
      · rename_i hadd
        obtain ⟨-, -, hd⟩ := add_token_ok hadd
        exact ih _ _ _ (hd ▸ ScannerData.pushRow_sync hs _ _ _ _) h

/-- Any error outcome of the run loop carries a record whose final row is the
one pushed on the failing path: a one-character `Unknown` row at the failure
offset for `UnknownToken`, or a partial `StringLiteral` row of span length
`source length - start + 1` for `UnexpectedEof`. -/
theorem runLoop_err_char (config : ScannerConfig) :
    ∀ fuel st data e d, runLoop config fuel st data = some (.err e d) →
      (∃ l o, e = .UnknownToken l o ∧
        d.token_types.getLast? = some .Unknown ∧
        d.token_len.getLast? = some 1 ∧
        d.token_start.getLast? = some o ∧
        d.token_lines.getLast? = some l) ∨
      (∃ l o v, e = .UnexpectedEof l o ∧
        d.token_types.getLast? = some (.StringLiteral v) ∧
        d.token_len.getLast? = some (d.source.length - o + 1) ∧
        d.token_start.getLast? = some o ∧
        d.token_lines.getLast? = some l ∧ o ≤ d.source.length) := by
  intro fuel
  induction fuel with
  | zero =>
    intro st data e d h
    simp [runLoop] at h
  | succ fuel ih =>
    intro st data e d h
    rw [runLoop] at h
    split at h
    · rename_i heq
      injection h with h
      injection h with he hd
      subst he hd
      rcases scan_token_err_char heq with ⟨he, hd⟩ | ⟨v, l, hle, he, hd⟩
      · subst he hd
        exact Or.inl ⟨st.line, st.current, rfl, by
          simp [ScannerData.pushRow, List.getLast?_concat]⟩
      · subst he hd
        exact Or.inr ⟨l, st.start, v, rfl, by
          simp [ScannerData.pushRow, List.getLast?_concat]
          exact hle⟩
    · exact absurd h (by simp)
    · exact absurd h (by simp)
    · exact ih _ _ _ _ h
    · exact ih _ _ _ _ h
    · split at h
      · rename_i hadd
        have := (add_token_err hadd).1
        exact absurd this (by simp)
      · exact absurd h (by simp)
      · exact ih _ _ _ _ h

/-! ### Concrete inputs from the repository's test suite -/

/-- Output record produced by the code on `local s="à` (scenario C). -/
def c2data : ScannerData := {
  source := "local s=\"à".data,
  token_types := [.Keyword "local", .Identifier "s", .Symbol "=", .StringLiteral "à"],
  token_lines := [1, 1, 1, 1],
  token_start := [0, 6, 7, 8],
  token_len := [5, 1, 1, 3] }

/-- Output record produced by the code on `local s="" --[[comment]]`
(scenario D): six tokens, the `Comment` span is 12 characters and its payload
stops before the final `]`, and a stray `Symbol "]"` token follows. -/
def c6data : ScannerData := {
  source := "local s=\"\" --[[comment]]".data,
  token_types := [.Keyword "local", .Identifier "s", .Symbol "=", .StringLiteral "",
    .Comment "--[[comment", .Symbol "]"],
  token_lines := [1, 1, 1, 1, 1, 1],
  token_start := [0, 6, 7, 8, 11, 23],
  token_len := [5, 1, 1, 2, 12, 1] }

/-! ### Claims -/

/-- C1: for every source text and configuration, whenever `Scanner::run`
returns (`Ok` or `Err`) on an initially empty `ScannerData`, the four output
sequences `token_types`, `token_start`, `token_len`, `token_lines` have equal
length: every path that appends to one appends exactly one entry to all four
(normal emission, partial-string error, unknown-token error alike). -/
theorem c1_sequences_lockstep (fuel : Nat) (source : String) (config : ScannerConfig)
    (r : RunResult) (h : Scanner.runWith fuel source config {} = some r) : r.sync := by
  unfold Scanner.runWith at h
  exact runLoop_sync config _ _ _ _ ⟨rfl, rfl, rfl⟩ h

def c1data : ScannerData := {
  source := "a".data,
  token_types := [.Identifier "a"],
  token_lines := [1],
  token_start := [0],
  token_len := [1] }

theorem c1_sequences_lockstep_witness : (RunResult.ok c1data).sync :=
  c1_sequences_lockstep 2 "a" LUA_CONFIG _ (by decide)

/-- C2: when end of input is reached inside a string literal, the run appends
a partial `StringLiteral` row whose span length is the source length minus the
token's start plus one, and returns `UnexpectedEof` carrying that row's line
and start offset; in particular `local s="à` under the Lua-like configuration
fails with `UnexpectedEof(1, 8)` while the record holds 4 tokens with starts
`[0,6,7,8]` and lengths `[5,1,1,3]`. -/
theorem c2_unterminated_string :
    (Scanner.runWith 20 "local s=\"à" LUA_CONFIG {} =
      some (.err (.UnexpectedEof 1 8) c2data)) ∧
    (∀ fuel source config data0 l o d,
      Scanner.runWith fuel source config data0 = some (.err (.UnexpectedEof l o) d) →
      (∃ v, d.token_types.getLast? = some (.StringLiteral v)) ∧
      d.token_len.getLast? = some (d.source.length - o + 1) ∧
      d.token_start.getLast? = some o ∧
      d.token_lines.getLast? = some l ∧ o ≤ d.source.length) := by
  constructor
  · decide
  · intro fuel source config data0 l o d h
    unfold Scanner.runWith at h
    rcases runLoop_err_char config _ _ _ _ _ h with ⟨l', o', he, -⟩ |
      ⟨l', o', v, he, h1, h2, h3, h4, h5⟩
    · exact absurd he (by simp)
    · injection he with hl ho
      subst hl ho
      exact ⟨⟨v, h1⟩, h2, h3, h4, h5⟩

theorem c2_unterminated_string_witness :
    (∃ v, c2data.token_types.getLast? = some (.StringLiteral v)) ∧
    c2data.token_len.getLast? = some (c2data.source.length - 8 + 1) ∧
    c2data.token_start.getLast? = some 8 ∧
    c2data.token_lines.getLast? = some 1 ∧ 8 ≤ c2data.source.length :=
  c2_unterminated_string.2 20 "local s=\"à" LUA_CONFIG {} 1 8 c2data
    c2_unterminated_string.1

/-- C6 (claim is right, code is wrong): on `local s="" --[[comment]]` the
in-repo test `multi_comments` and the claim expect exactly 5 tokens ending in
a `Comment` of span length 13 covering `--[[comment]]`, but the code produces
6 tokens: the `Comment` row has span length 12 (its span misses the final `]`,
its payload even stops before both `]`), followed by a stray `Symbol "]"`. -/
theorem c6_multiline_comment_scenario :
    Scanner.runWith 30 "local s=\"\" --[[comment]]" LUA_CONFIG {} = some (.ok c6data) ∧
    c6data.token_types.length = 6 ∧
    c6data.token_types.getD 4 .Unknown = .Comment "--[[comment" ∧
    c6data.token_len.getD 4 0 = 12 := by decide

/-- C8 counterexample: with an unterminated multi-line comment the run does
not end quietly; the scan after the comment indexes the source out of range
(the `panic` outcome arises exactly from the checked out-of-range access in
`scan_newline`), refuting the claim that no out-of-range access occurs. -/
theorem c8_unterminated_comment_counterexample :
    Scanner.runWith 10 "--[[x" LUA_CONFIG {} =
      some (.panic { source := "--[[x".data }) := by decide

theorem scan_newline_oob {st : Scanner} {data : ScannerData}
    (h : data.source.length ≤ st.current) : scan_newline st data = .error (.panic data) := by
  unfold scan_newline idxM
  rw [dif_neg (by omega)]

/-- C8 amended: the run emits no token and returns no `ScanError` for the
unterminated comment, but it does not stay in range: the comment scan leaves
the cursor at or past end of input, and the following newline check then
performs an out-of-range source access, so the run ends in a panic with no
tokens recorded. -/
theorem c8_unterminated_comment_amended :
    (Scanner.runWith 10 "--[[x" LUA_CONFIG {} =
      some (.panic { source := "--[[x".data })) ∧
    (∀ st data config st1, st.current < data.source.length →
      scan_comment st data config = .ok (none, st1) →
      data.source.length ≤ st1.current →
      scan_token st data config = .error (.panic data)) := by
  constructor
  · decide
  · intro st data config st1 hlt hcmt hge
    unfold scan_token
    rw [if_neg (by omega)]
    simp only [hcmt, scan_newline_oob hge]

theorem c8_unterminated_comment_amended_witness :
    scan_token { start := 0, current := 0, line := 1 } { source := "--[[x".data }
      LUA_CONFIG = .error (.panic { source := "--[[x".data }) :=
  c8_unterminated_comment_amended.2 { start := 0, current := 0, line := 1 }
    { source := "--[[x".data } LUA_CONFIG { start := 0, current := 5, line := 1 }
    (by decide) (by decide) (by decide)

/-- C10: when no classifier matches, the scanner pushes one row onto all four
sequences — span length 1, start equal to the failure offset, kind the
internal pseudo-kind `Unknown` — before returning `UnknownToken`, whose
offset equals that row's start; `Unknown` is distinct from all six emitted
kinds, so a failed run's record can contain a kind outside them. -/
theorem c10_unknown_token :
    (∀ st data config e d', scan_token st data config = .error (.err e d') →
      ∀ l o, e = .UnknownToken l o →
      l = st.line ∧ o = st.current ∧
      d' = data.pushRow 1 st.current .Unknown st.line) ∧
    (∀ fuel source config data0 l o d,
      Scanner.runWith fuel source config data0 = some (.err (.UnknownToken l o) d) →
      d.token_types.getLast? = some .Unknown ∧
      d.token_len.getLast? = some 1 ∧
      d.token_start.getLast? = some o ∧
      d.token_lines.getLast? = some l) ∧
    (∀ s, TokenType.Unknown ≠ .Symbol s ∧ TokenType.Unknown ≠ .Identifier s ∧
      TokenType.Unknown ≠ .StringLiteral s ∧ TokenType.Unknown ≠ .NumberLiteral s ∧
      TokenType.Unknown ≠ .Keyword s ∧ TokenType.Unknown ≠ .Comment s) := by
  refine ⟨?_, ?_, ?_⟩
  · intro st data config e d' h l o he
    subst he
    rcases scan_token_err_char h with ⟨he, hd⟩ | ⟨v, l', -, he, -⟩
    · injection he with hl ho
      exact ⟨hl, ho, hd⟩
    · exact absurd he (by simp)
  · intro fuel source config data0 l o d h
    unfold Scanner.runWith at h
    rcases runLoop_err_char config _ _ _ _ _ h with ⟨l', o', he, h1, h2, h3, h4⟩ |
      ⟨l', o', v, he, -⟩
    · injection he with hl ho
      subst hl ho
      exact ⟨h1, h2, h3, h4⟩
    · exact absurd he (by simp)
  · intro s
    refine ⟨?_, ?_, ?_, ?_, ?_, ?_⟩ <;> simp

theorem c10_unknown_token_witness :
    1 = ({ start := 0, current := 0, line := 1 } : Scanner).line ∧
    0 = ({ start := 0, current := 0, line := 1 } : Scanner).current ∧
    ({ source := "à".data } : ScannerData).pushRow 1 0 .Unknown 1 =
      ({ source := "à".data } : ScannerData).pushRow 1
        ({ start := 0, current := 0, line := 1 } : Scanner).current .Unknown
        ({ start := 0, current := 0, line := 1 } : Scanner).line := by
  have := c10_unknown_token.1 { start := 0, current := 0, line := 1 }
    { source := "à".data } LUA_CONFIG (.UnknownToken 1 0)
    (({ source := "à".data } : ScannerData).pushRow 1 0 .Unknown 1)
    (by decide) 1 0 rfl
  exact ⟨this.1, this.2.1, by rw [← this.2.2]⟩

/-- Output record produced by the code on `--c`: the single-line comment row
records line 2, although the comment's first character is on line 1. -/
def c5data : ScannerData := {
  source := "--c".data,
  token_types := [.Comment "--c"],
  token_lines := [2],
  token_start := [0],
  token_len := [4] }

/-- C5 counterexample: on input `--c` (a single-line comment starting at
line 1) the emitted row's `token_lines` entry is 2, not the 1-based line of
the token's first character. -/
theorem c5_token_line_counterexample :
    Scanner.runWith 10 "--c" LUA_CONFIG {} = some (.ok c5data) ∧
    c5data.token_lines ≠ [1] := by decide

/-- C5 amended: the `token_lines` entry records the scanner's line counter at
emission time, after the token's scan.  Symbol, keyword, identifier and
number scans leave the counter unchanged, so their rows do record the line of
the token's first character; but a single-line comment scan increments the
counter before emission, so a comment row records its first character's line
plus one (input `--c` records line 2), and a string literal with embedded
newlines records the line of its closing quote. -/
theorem c5_token_line_amended :
    (∀ st st' data config t, scan_symbol st data config = (some t, st') →
      st'.line = st.line) ∧
    (∀ st st' data config t, scan_keyword st data config = (some t, st') →
      st'.line = st.line) ∧
    (∀ st st' data t, scan_identifier st data = .ok (some t, st') → st'.line = st.line) ∧
    (∀ st st' data t, scan_number st data = .ok (some t, st') → st'.line = st.line) ∧
    (∀ st st' data o, scan_single_line_comment st data = .ok (o, st') →
      st'.line = st.line + 1) ∧
    Scanner.runWith 10 "--c" LUA_CONFIG {} = some (.ok c5data) := by
  refine ⟨?_, ?_, ?_, ?_, ?_, by decide⟩
  · intro st st' data config t h
    obtain ⟨s, -, -, -, hst⟩ := scan_symbol_list_some h
    rw [hst]
  · intro st st' data config t h
    obtain ⟨s, -, -, -, -, hst⟩ := scan_keyword_list_some h
    rw [hst]
  · intro st st' data t h
    obtain ⟨-, hst, -⟩ := scan_identifier_some h
    rw [hst]
  · intro st st' data t h
    exact (scan_number_some h).2.1
  · intro st st' data o h
    obtain ⟨-, hst⟩ := scan_single_line_comment_ok h
    rw [hst]

theorem c5_token_line_amended_witness :
    ({ start := 0, current := 1, line := 1 } : Scanner).line =
      ({ start := 0, current := 0, line := 1 } : Scanner).line :=
  c5_token_line_amended.1 { start := 0, current := 0, line := 1 }
    { start := 0, current := 1, line := 1 } { source := "+".data } LUA_CONFIG
    (.Symbol "+") (by decide)

theorem strGo_count (source : List Char) :
    ∀ gas cur value line v cur' line',
      strGo source gas cur false value line = .closed v cur' line' →
      (∀ i, cur ≤ i → i < cur' → source.getD i ' ' ≠ '\\') →
      v.length + 1 = value.length + (cur' - cur) ∧
      ∀ x ∈ v, x ∈ value ∨ x ≠ '"' := by
  intro gas
  induction gas with
  | zero =>
    intro cur value line v cur' line' hr
    exact absurd hr (by simp [strGo])
  | succ gas ih =>
    intro cur value line v cur' line' hr hbs
    unfold strGo at hr
    split at hr
    · rename_i hlt
      simp only at hr
      split at hr
      · rename_i hc
        have hcur := (strGo_closed source _ _ _ _ _ _ _ _ hr).1
        have hne := hbs cur (Nat.le_refl _) (by omega)
        rw [List.getD_eq_getElem _ _ hlt] at hne
        simp at hc
        exact absurd hc hne
      · rename_i hc0
        split at hr
        · injection hr with h1 h2 h3
          subst h1 h2
          refine ⟨by omega, fun x hx => Or.inl hx⟩
        · rename_i hq
          split at hr
          · rename_i hn
            simp at hn
          · split at hr
            · rename_i ht
              simp at ht
            · have hcur := (strGo_closed source _ _ _ _ _ _ _ _ hr).1
              have hq' : source[cur] ≠ '"' := by
                intro he
                simp [he] at hq
              obtain ⟨hcount, hmem⟩ := ih _ _ _ _ _ _ hr
                (fun i h1 h2 => hbs i (by omega) h2)
              refine ⟨by simp at hcount ⊢; omega, fun x hx => ?_⟩
              rcases hmem x hx with hx' | hx'
              · rcases List.mem_append.mp hx' with h | h
                · exact Or.inl h
                · simp at h
                  subst h
                  exact Or.inr hq'
              · exact Or.inr hx'
    · exact absurd hr (by simp)

/-- Output record produced by the code on the six-character raw input
`"a\nb"` (quote, a, backslash, n, b, quote): the span length is 6 but the
unescaped content `a`, newline, `b` has length 3, refuting length = content + 2. -/
def c4data : ScannerData := {
  source := ['\"', 'a', '\\', 'n', 'b', '\"'],
  token_types := [.StringLiteral "a\nb"],
  token_lines := [1],
  token_start := [0],
  token_len := [6] }

/-- C4 counterexample: for a string literal containing the escape sequence
`\n`, the recorded span length (6) is not the content length plus 2 (= 5);
each two-character escape contributes a single content character. -/
theorem c4_string_span_counterexample :
    Scanner.runWith 10 (String.mk ['\"', 'a', '\\', 'n', 'b', '\"']) LUA_CONFIG {} =
      some (.ok c4data) ∧
    "a\nb".data.length + 2 = 5 ∧ c4data.token_len ≠ [5] := by decide

/-- C4 amended: for a `StringLiteral` whose scan starts at the pending token
start (`start = current`, i.e. not preceded by an unreset newline) and whose
raw span contains no backslash (so no escape sequences), the consumed span —
which `add_token` records as the token length — equals the content length
plus 2 for the two quotes, and the content never contains the enclosing
quotes.  (With escapes, the span exceeds content + 2 by one per escape.) -/
theorem c4_string_span_amended :
    ∀ st st' data v,
      scan_string st data = .ok (some (.StringLiteral v), st') →
      st.start = st.current →
      (∀ i, st.current ≤ i → i < st'.current → data.source.getD i ' ' ≠ '\\') →
      st'.current - st.start = v.data.length + 2 ∧ '"' ∉ v.data := by
  intro st st' data v h hstart hbs
  obtain ⟨value, cur, line, hloop, ht, hst', hlt, hq⟩ := scan_string_some h
  injection ht with ht
  have hst'c : st'.current = cur := by rw [hst']
  have hcl := scan_string_loop_closed data.source _ _ _ _ _ _ _ hloop
  obtain ⟨hcount, hmem⟩ := strGo_count data.source _ _ _ _ _ _ _ hloop
    (fun i h1 h2 => hbs i (by omega) (by omega))
  subst ht
  refine ⟨?_, ?_⟩
  · simp only [String.mk] at *
    rw [hst'c, ← hstart] at *
    simp at hcount
    omega
  · intro hmem'
    rcases hmem '"' hmem' with h | h
    · simp at h
    · exact h rfl

theorem c4_string_span_amended_witness :
    ({ start := 0, current := 4, line := 1 } : Scanner).current -
      ({ start := 0, current := 0, line := 1 } : Scanner).start =
      "ab".data.length + 2 ∧ '"' ∉ "ab".data :=
  c4_string_span_amended { start := 0, current := 0, line := 1 }
    { start := 0, current := 4, line := 1 } { source := "\"ab\"".data } "ab"
    (by decide) rfl
    (by
      intro i h1 h2
      have hi4 : i < 4 := h2
      interval_cases i <;> decide)

theorem strByteLen_pos {s : String} (h : s.data ≠ []) : 0 < strByteLen s := by
  unfold strByteLen
  rcases hd : s.data with - | ⟨c, cs⟩
  · exact absurd hd h
  · unfold byteLenAux
    have := Char.utf8Size_pos c
    omega

/-- A configuration whose symbol list contains the empty string: `matches`
vacuously succeeds and `current += s.len()` adds zero, so the run loop never
advances nor stops. -/
def emptySymbolConfig : ScannerConfig := {
  keywords := [],
  symbols := [""],
  single_line_cmt := none,
  multi_line_cmt_start := none,
  multi_line_cmt_end := none }

theorem emptySymbol_spins :
    ∀ fuel (data : ScannerData), data.source = ['a'] →
      runLoop emptySymbolConfig fuel { start := 0, current := 0, line := 1 } data = none := by
  intro fuel
  induction fuel with
  | zero => intro data h; rfl
  | succ fuel ih =>
    intro data h
    obtain ⟨src, tt, tl, ts, tln⟩ := data
    simp only at h
    subst h
    have hst : scan_token { start := 0, current := 0, line := 1 }
        { source := ['a'], token_types := tt, token_lines := tl, token_start := ts,
          token_len := tln } emptySymbolConfig =
        .ok (.Symbol "", { start := 0, current := 0, line := 1 }) := rfl
    rw [runLoop]
    simp only [hst]
    exact ih _ rfl

/-- C9 counterexample: the claim fails in two independent ways.  (1) On the
one-character digit input `5`, `scan_number` evaluates `source_len - 2`,
which underflows for a buffer of length 1, so the run ends in a panic —
neither success nor an error.  (2) With a configuration whose symbol list
contains the empty string, `matches` always succeeds and the cursor advances
by zero, so the run loop never terminates (no fuel suffices). -/
theorem c9_termination_counterexample :
    (Scanner.runWith 10 "5" LUA_CONFIG {} = some (.panic { source := "5".data })) ∧
    (∀ fuel, Scanner.runWith fuel "a" emptySymbolConfig {} = none) := by
  constructor
  · decide
  · intro fuel
    exact emptySymbol_spins fuel _ rfl

theorem is_alphanum_of_alpha {c : Char} (h : is_alpha c = true) : is_alphanum c = true := by
  unfold is_alphanum
  rw [h]
  simp

theorem identLoop_gt_of_alphanum (source : List Char) (cur : Nat) (value : List Char)
    (h : cur < source.length) (ha : is_alphanum source[cur] = true) :
    cur < (identLoop source cur value).2 := by
  unfold identLoop
  obtain ⟨gas, hgas⟩ : ∃ gas, source.length - cur = gas + 1 := ⟨source.length - cur - 1, by omega⟩
  rw [hgas]
  unfold identGo
  rw [dif_pos h, if_pos ha]
  exact lt_of_lt_of_le (by omega) (identGo_ge source gas (cur + 1) _)

/-- With every configured symbol and keyword nonempty, a `scan_token` call at
an in-range cursor either fails (error or panic) or returns a token having
strictly advanced the cursor. -/
theorem scan_token_progress (config : ScannerConfig)
    (hsym : ∀ s ∈ config.symbols, s.data ≠ [])
    (hkw : ∀ k ∈ config.keywords, k.data ≠ [])
    (st : Scanner) (data : ScannerData) (hlt : st.current < data.source.length) :
    (∃ f, scan_token st data config = .error f) ∨
    (∃ t st', scan_token st data config = .ok (t, st') ∧ st.current < st'.current) := by
  have hne : ¬ data.source.length ≤ st.current := by omega
  rcases hc : scan_comment st data config with f | ⟨o, st1⟩
  · exact Or.inl ⟨f, by unfold scan_token; rw [if_neg hne]; simp only [hc]⟩
  · rcases o with - | t
    · rcases scan_comment_none hc with h1 | ⟨-, -, hge⟩
      · subst h1
        rcases hn : scan_newline st1 data with f | ⟨o2, st2⟩
        · exact Or.inl ⟨f, by unfold scan_token; rw [if_neg hne]; simp only [hc, hn]⟩
        · rcases o2 with - | t2
          · have h2 := scan_newline_none hn
            subst h2
            rcases hsp : scan_space st2 data with ⟨o3, st3⟩
            rcases o3 with - | t3
            · have h3 := scan_space_none hsp
              subst h3
              rcases hsy : scan_symbol st3 data config with ⟨o4, st4⟩
              rcases o4 with - | t4
              · have h4 := scan_symbol_list_none hsy
                subst h4
                rcases hkw2 : scan_keyword st4 data config with ⟨o5, st5⟩
                rcases o5 with - | t5
                · have h5 := scan_keyword_list_none hkw2
                  subst h5
                  rcases hstr : scan_string st5 data with f | ⟨o6, st6⟩
                  · exact Or.inl ⟨f, by
                      unfold scan_token
                      rw [if_neg hne]
                      simp only [hc, hn, hsp, hsy, hkw2, hstr]⟩
                  · rcases o6 with - | t6
                    · have h6 := (scan_string_none hstr).1
                      subst h6
                      rcases hid : scan_identifier st6 data with f | ⟨o7, st7⟩
                      · exact Or.inl ⟨f, by
                          unfold scan_token
                          rw [if_neg hne]
                          simp only [hc, hn, hsp, hsy, hkw2, hstr, hid]⟩
                      · rcases o7 with - | t7
                        · have h7 := scan_identifier_none hid
                          subst h7
                          rcases hnum : scan_number st7 data with f | ⟨o8, st8⟩
                          · exact Or.inl ⟨f, by
                              unfold scan_token
                              rw [if_neg hne]
                              simp only [hc, hn, hsp, hsy, hkw2, hstr, hid, hnum]⟩
                          · rcases o8 with - | t8
                            · have h8 := scan_number_none hnum
                              subst h8
                              exact Or.inl ⟨.err (.UnknownToken st8.line st8.current)
                                  (data.pushRow 1 st8.current .Unknown st8.line), by
                                unfold scan_token
                                rw [if_neg hne]
                                simp only [hc, hn, hsp, hsy, hkw2, hstr, hid, hnum]
                                rfl⟩
                            · obtain ⟨-, -, hadv, -⟩ := scan_number_some hnum
                              exact Or.inr ⟨t8, st8, by
                                unfold scan_token
                                rw [if_neg hne]
                                simp only [hc, hn, hsp, hsy, hkw2, hstr, hid, hnum], hadv⟩
                        · obtain ⟨-, hst7, hlt7, ha⟩ := scan_identifier_some hid
                          rw [List.getD_eq_getElem _ _ hlt7] at ha
                          exact Or.inr ⟨t7, st7, by
                            unfold scan_token
                            rw [if_neg hne]
                            simp only [hc, hn, hsp, hsy, hkw2, hstr, hid], by
                            rw [hst7]
                            exact identLoop_gt_of_alphanum _ _ _ hlt7
                              (is_alphanum_of_alpha ha)⟩
                    · obtain ⟨value, cur, line, hloop, -, hst6, -, -⟩ := scan_string_some hstr
                      have hadv := (scan_string_loop_closed _ _ _ _ _ _ _ _ hloop).1
                      exact Or.inr ⟨t6, st6, by
                        unfold scan_token
                        rw [if_neg hne]
                        simp only [hc, hn, hsp, hsy, hkw2, hstr], by
                        rw [hst6]
                        simp only
                        omega⟩
                · obtain ⟨s, hsL, -, -, -, hst5⟩ := scan_keyword_list_some hkw2
                  have hpos := strByteLen_pos (hkw s hsL)
                  exact Or.inr ⟨t5, st5, by
                    unfold scan_token
                    rw [if_neg hne]
                    simp only [hc, hn, hsp, hsy, hkw2], by
                    rw [hst5]
                    simp only
                    omega⟩
              · obtain ⟨s, hsL, -, -, hst4⟩ := scan_symbol_list_some hsy
                have hpos := strByteLen_pos (hsym s hsL)
                exact Or.inr ⟨t4, st4, by
                  unfold scan_token
                  rw [if_neg hne]
                  simp only [hc, hn, hsp, hsy], by
                  rw [hst4]
                  simp only
                  omega⟩
            · obtain ⟨-, hst3, hadv⟩ := scan_space_some hsp
              exact Or.inr ⟨t3, st3, by
                unfold scan_token
                rw [if_neg hne]
                simp only [hc, hn, hsp], by
                rw [hst3]
                exact hadv⟩
          · obtain ⟨-, hst2⟩ := scan_newline_some hn
            exact Or.inr ⟨t2, st2, by
              unfold scan_token
              rw [if_neg hne]
              simp only [hc, hn], by
              rw [hst2]
              simp⟩
      · exact Or.inl ⟨.panic data, by
          unfold scan_token
          rw [if_neg hne]
          simp only [hc, scan_newline_oob hge]⟩
    · obtain ⟨-, hadv, -⟩ := scan_comment_some hc
      exact Or.inr ⟨t, st1, by
        unfold scan_token
        rw [if_neg hne]
        simp only [hc], hadv⟩

theorem runLoop_step_default (config : ScannerConfig) (n : Nat) (st : Scanner)
    (data : ScannerData) (t : TokenType) (st' : Scanner)
    (hok : scan_token st data config = .ok (t, st'))
    (hne : t ≠ .Eof) (hni : t ≠ .Ignore) (hnn : t ≠ .NewLine) :
    (∃ rr, runLoop config (n + 1) st data = some rr) ∨
    (∃ st'' data', add_token st' t data = .ok (st'', data') ∧
      st'' = { st' with start := st'.current } ∧ data'.source = data.source ∧
      runLoop config (n + 1) st data = runLoop config n st'' data') := by
  rcases hadd : add_token st' t data with f | ⟨st'', data'⟩
  · rcases f with ⟨e, d⟩ | ⟨d⟩
    · refine Or.inl ⟨.err e d, ?_⟩
      rw [runLoop]
      simp only [hok]
      cases t <;>
        first
        | exact absurd rfl hne
        | exact absurd rfl hni
        | exact absurd rfl hnn
        | simp only [hadd]
    · refine Or.inl ⟨.panic d, ?_⟩
      rw [runLoop]
      simp only [hok]
      cases t <;>
        first
        | exact absurd rfl hne
        | exact absurd rfl hni
        | exact absurd rfl hnn
        | simp only [hadd]
  · obtain ⟨-, hst'', hdata'⟩ := add_token_ok hadd
    refine Or.inr ⟨st'', data', rfl, hst'', by rw [hdata']; rfl, ?_⟩
    rw [runLoop]
    simp only [hok]
    cases t <;>
      first
      | exact absurd rfl hne
      | exact absurd rfl hni
      | exact absurd rfl hnn
      | simp only [hadd]

theorem runLoop_term (config : ScannerConfig)
    (hsym : ∀ s ∈ config.symbols, s.data ≠ [])
    (hkw : ∀ k ∈ config.keywords, k.data ≠ []) :
    ∀ n st data, data.source.length - st.current < n →
      ∃ r, runLoop config n st data = some r := by
  intro n
  induction n with
  | zero =>
    intro st data hn
    omega
  | succ n ih =>
    intro st data hn
    by_cases hlt : st.current < data.source.length
    · obtain hprog := scan_token_progress config hsym hkw st data hlt
      rcases hprog with ⟨f, hf⟩ | ⟨t, st', hok, hadv⟩
      · rcases f with ⟨e, d⟩ | ⟨d⟩
        · exact ⟨.err e d, by rw [runLoop]; simp only [hf]⟩
        · exact ⟨.panic d, by rw [runLoop]; simp only [hf]⟩
      · cases t with
        | Eof => exact ⟨.ok data, by rw [runLoop]; simp only [hok]⟩
        | Ignore =>
          obtain ⟨r, hr⟩ := ih { st' with start := st'.current } data (by simp only; omega)
          exact ⟨r, by rw [runLoop]; simp only [hok]; exact hr⟩
        | NewLine =>
          obtain ⟨r, hr⟩ := ih st' data (by omega)
          exact ⟨r, by rw [runLoop]; simp only [hok]; exact hr⟩
        | Symbol s =>
          rcases runLoop_step_default config n st data _ st' hok (by simp) (by simp)
              (by simp) with ⟨rr, hrr⟩ | ⟨st'', data', hadd, hst'', hsrc, heq⟩
          · exact ⟨rr, hrr⟩
          · obtain ⟨r, hr⟩ := ih st'' data' (by rw [hst'', hsrc]; simp only; omega)
            exact ⟨r, by rw [heq]; exact hr⟩
        | Identifier s =>
          rcases runLoop_step_default config n st data _ st' hok (by simp) (by simp)
              (by simp) with ⟨rr, hrr⟩ | ⟨st'', data', hadd, hst'', hsrc, heq⟩
          · exact ⟨rr, hrr⟩
          · obtain ⟨r, hr⟩ := ih st'' data' (by rw [hst'', hsrc]; simp only; omega)
            exact ⟨r, by rw [heq]; exact hr⟩
        | StringLiteral s =>
          rcases runLoop_step_default config n st data _ st' hok (by simp) (by simp)
              (by simp) with ⟨rr, hrr⟩ | ⟨st'', data', hadd, hst'', hsrc, heq⟩
          · exact ⟨rr, hrr⟩
          · obtain ⟨r, hr⟩ := ih st'' data' (by rw [hst'', hsrc]; simp only; omega)
            exact ⟨r, by rw [heq]; exact hr⟩
        | NumberLiteral s =>
          rcases runLoop_step_default config n st data _ st' hok (by simp) (by simp)
              (by simp) with ⟨rr, hrr⟩ | ⟨st'', data', hadd, hst'', hsrc, heq⟩
          · exact ⟨rr, hrr⟩
          · obtain ⟨r, hr⟩ := ih st'' data' (by rw [hst'', hsrc]; simp only; omega)
            exact ⟨r, by rw [heq]; exact hr⟩
        | Keyword s =>
          rcases runLoop_step_default config n st data _ st' hok (by simp) (by simp)
              (by simp) with ⟨rr, hrr⟩ | ⟨st'', data', hadd, hst'', hsrc, heq⟩
          · exact ⟨rr, hrr⟩
          · obtain ⟨r, hr⟩ := ih st'' data' (by rw [hst'', hsrc]; simp only; omega)
            exact ⟨r, by rw [heq]; exact hr⟩
        | Comment s =>
          rcases runLoop_step_default config n st data _ st' hok (by simp) (by simp)
              (by simp) with ⟨rr, hrr⟩ | ⟨st'', data', hadd, hst'', hsrc, heq⟩
          · exact ⟨rr, hrr⟩
          · obtain ⟨r, hr⟩ := ih st'' data' (by rw [hst'', hsrc]; simp only; omega)
            exact ⟨r, by rw [heq]; exact hr⟩
        | Unknown =>
          rcases runLoop_step_default config n st data _ st' hok (by simp) (by simp)
              (by simp) with ⟨rr, hrr⟩ | ⟨st'', data', hadd, hst'', hsrc, heq⟩
          · exact ⟨rr, hrr⟩
          · obtain ⟨r, hr⟩ := ih st'' data' (by rw [hst'', hsrc]; simp only; omega)
            exact ⟨r, by rw [heq]; exact hr⟩
    · exact ⟨.ok data, by
        rw [runLoop]
        rw [scan_token_eof (by omega)]⟩

/-- C9 amended: provided every configured symbol and keyword is a nonempty
string, `Scanner::run` reaches an outcome after finitely many loop iterations
— at most `source length + 2` of them — but that outcome is success, an
error, or a panic (e.g. the one-character digit input `5`, which the claim
itself covers via "inputs as short as one character", panics in
`scan_number`'s `source_len - 2`).  Each classify-and-act step either
strictly advances the cursor, ends the run, or fails. -/
theorem c9_termination_amended (config : ScannerConfig) (source : String)
    (data0 : ScannerData)
    (hsym : ∀ s ∈ config.symbols, s.data ≠ [])
    (hkw : ∀ k ∈ config.keywords, k.data ≠ []) :
    ∃ r, Scanner.runWith (source.data.length + 2) source config data0 = some r := by
  unfold Scanner.runWith
  apply runLoop_term config hsym hkw
  simp

theorem c9_termination_amended_witness :
    ∃ r, Scanner.runWith ("x".data.length + 2) "x" LUA_CONFIG {} = some r :=
  c9_termination_amended LUA_CONFIG "x" {} (by decide) (by decide)

/-! ### Keyword-boundary machinery (C7) -/

/-- A marker or symbol whose first character is not alphanumeric (and which is
nonempty): such a string can never match at a position holding an
alphanumeric character. -/
def headNotAlphanum (s : String) : Bool :=
  match s.data with
  | [] => false
  | c :: _ => !is_alphanum c

/-- A keyword that is nonempty, starts with a letter or underscore, and whose
characters are all alphanumeric single-byte (ASCII) characters. -/
def asciiAlphaKeyword (k : String) : Bool :=
  match k.data with
  | [] => false
  | c :: _ => is_alpha c && k.data.all (fun d => is_alphanum d && decide (d.utf8Size = 1))

/-- No configured keyword extends another configured keyword by exactly one
character. -/
def noKeywordExtension (ks : List String) : Bool :=
  ks.all fun k => ks.all fun k2 =>
    !(decide (k.data <+: k2.data) && decide (k2.data.length = k.data.length + 1))

theorem alphanum_not_space {ch : Char} (h : is_alphanum ch = true) : is_space ch = false := by
  rcases Bool.eq_false_or_eq_true (is_space ch) with hs | hs
  · unfold is_space at hs
    simp only [Bool.or_eq_true, decide_eq_true_eq] at hs
    rcases hs with (h1 | h1) | h1 <;> (subst h1; exact absurd h (by decide))
  · exact hs

theorem alphanum_ne_newline {ch : Char} (h : is_alphanum ch = true) : ch ≠ '\n' := by
  intro he
  subst he
  exact absurd h (by decide)

theorem alphanum_ne_quote {ch : Char} (h : is_alphanum ch = true) : ch ≠ '"' := by
  intro he
  subst he
  exact absurd h (by decide)

theorem byteLenAux_of_ascii {l : List Char} (h : ∀ ch ∈ l, ch.utf8Size = 1) :
    byteLenAux l = l.length := by
  induction l with
  | nil => rfl
  | cons x xs ih =>
    unfold byteLenAux
    rw [h x (by simp), ih (fun ch hch => h ch (by simp [hch]))]
    simp
    omega

theorem matchesFrom_head_false {source : List Char} {pos : Nat} {c0 : Char} {cs : List Char}
    (h : pos < source.length) (hne : source[pos] ≠ c0) :
    matchesFrom source pos (c0 :: cs) = false := by
  unfold matchesFrom
  rw [dif_pos h, if_neg hne]

theorem scan_symbol_list_none_of {st : Scanner} {data : ScannerData} :
    ∀ {L : List String}, (∀ s ∈ L, st.matches s data = false) →
      scan_symbol_list st data L = (none, st) := by
  intro L
  induction L with
  | nil => intro _; rfl
  | cons s rest ih =>
    intro hL
    unfold scan_symbol_list
    rw [if_neg (by rw [hL s (by simp)]; simp)]
    exact ih (fun s' hs' => hL s' (by simp [hs']))

theorem scan_keyword_list_none_of {st : Scanner} {data : ScannerData} :
    ∀ {L : List String},
      (∀ s ∈ L, ¬(st.matches s data = true ∧
        (data.source.length ≤ st.current + strByteLen s ∨
          is_alphanum (data.source.getD (st.current + strByteLen s) ' ') = false))) →
      scan_keyword_list st data L = (none, st) := by
  intro L
  induction L with
  | nil => intro _; rfl
  | cons s rest ih =>
    intro hL
    unfold scan_keyword_list
    dsimp only
    split
    · rename_i hcond
      exact absurd hcond (hL s (by simp))
    · exact ih (fun s' hs' => hL s' (by simp [hs']))

theorem identGo_all {source : List Char} (hall : ∀ ch ∈ source, is_alphanum ch = true) :
    ∀ gas cur value, source.length - cur ≤ gas → cur ≤ source.length →
      identGo source gas cur value = (value ++ source.drop cur, source.length) := by
  intro gas
  induction gas with
  | zero =>
    intro cur value hg hc
    have hcl : cur = source.length := by omega
    subst hcl
    unfold identGo
    simp
  | succ gas ih =>
    intro cur value hg hc
    unfold identGo
    split
    · rename_i h
      rw [if_pos (hall _ (List.getElem_mem h))]
      rw [ih (cur + 1) _ (by omega) (by omega)]
      rw [List.append_assoc]
      congr 1
      rw [List.drop_eq_getElem_cons h]
      rfl
    · rename_i h
      have hcl : cur = source.length := by omega
      subst hcl
      simp

theorem spaceEnd_stop {source : List Char} {cur : Nat} (h : cur < source.length)
    (hsp : is_space source[cur] = false) : spaceEnd source cur = cur := by
  unfold spaceEnd
  obtain ⟨gas, hgas⟩ : ∃ gas, source.length - cur = gas + 1 := ⟨source.length - cur - 1, by omega⟩
  rw [hgas]
  unfold spaceEndGo
  rw [dif_pos h, if_neg (by rw [hsp]; simp)]

/-- Under boundary-respecting configurations, `scan_token` on a keyword followed
by an alphanumeric character produces a single `Identifier` covering the whole
input, not a `Keyword`. -/
theorem scan_token_keyword_boundary (config : ScannerConfig)
    (hsl : Option.all headNotAlphanum config.single_line_cmt = true)
    (hml : Option.all headNotAlphanum config.multi_line_cmt_start = true)
    (hsym : config.symbols.all headNotAlphanum = true)
    (hkws : config.keywords.all asciiAlphaKeyword = true)
    (hext : noKeywordExtension config.keywords = true)
    (k : String) (hk : k ∈ config.keywords) (c : Char) (hc : is_alphanum c = true)
    (data : ScannerData) (hdata : data.source = k.data ++ [c]) :
    scan_token { start := 0, current := 0, line := 1 } data config =
      .ok (.Identifier (String.mk (k.data ++ [c])),
        { start := 0, current := k.data.length + 1, line := 1 }) := by
  have hkd := List.all_eq_true.mp hkws k hk
  rcases hk0 : k.data with - | ⟨c0, rest⟩
  · unfold asciiAlphaKeyword at hkd
    rw [hk0] at hkd
    exact absurd hkd (by simp)
  · unfold asciiAlphaKeyword at hkd
    rw [hk0] at hkd
    simp only [Bool.and_eq_true, List.all_eq_true, decide_eq_true_eq] at hkd
    obtain ⟨halpha0, hkchars⟩ := hkd
    have hlen : data.source.length = k.data.length + 1 := by rw [hdata]; simp
    have h0 : 0 < data.source.length := by omega
    have hc0 : data.source[0] = c0 := by
      simp [hdata, hk0]
    have hc0an : is_alphanum c0 = true := is_alphanum_of_alpha halpha0
    have hall : ∀ ch ∈ data.source, is_alphanum ch = true := by
      intro ch hch
      rw [hdata] at hch
      rcases List.mem_append.mp hch with h1 | h1
      · rw [hk0] at h1
        exact (hkchars ch h1).1
      · simp at h1
        subst h1
        exact hc
    have hidx0 : idxM data 0 = .ok c0 := by
      unfold idxM
      rw [dif_pos h0, hc0]
    have hmna : ∀ (m : String), headNotAlphanum m = true →
        Scanner.matches { start := 0, current := 0, line := 1 } m data = false := by
      intro m hm
      unfold headNotAlphanum at hm
      split at hm
      · exact absurd hm (by simp)
      · rename_i c1 cs1 hm1
        unfold Scanner.matches
        rw [hm1]
        apply matchesFrom_head_false h0
        rw [hc0]
        intro he
        subst he
        simp at hm
        exact absurd hc0an (by simp [hm])
    have hsingle : scan_comment_single { start := 0, current := 0, line := 1 } data config =
        .ok (none, { start := 0, current := 0, line := 1 }) := by
      unfold scan_comment_single
      rcases hss : config.single_line_cmt with - | ss
      · rfl
      · rw [hss] at hsl
        simp only [Option.all_some] at hsl
        simp only [hmna ss hsl, Bool.false_eq_true, if_false]
    have hcmt : scan_comment { start := 0, current := 0, line := 1 } data config =
        .ok (none, { start := 0, current := 0, line := 1 }) := by
      unfold scan_comment
      rcases hms : config.multi_line_cmt_start with - | ms
      · rcases hme : config.multi_line_cmt_end with - | me
        · exact hsingle
        · exact hsingle
      · rcases hme : config.multi_line_cmt_end with - | me
        · exact hsingle
        · rw [hms] at hml
          simp only [Option.all_some] at hml
          simp only [hmna ms hml, Bool.false_eq_true, if_false]
          exact hsingle
    have hnl : scan_newline { start := 0, current := 0, line := 1 } data =
        .ok (none, { start := 0, current := 0, line := 1 }) := by
      unfold scan_newline
      simp only [hidx0]
      rw [if_neg (alphanum_ne_newline hc0an)]
    have hspc : scan_space { start := 0, current := 0, line := 1 } data =
        (none, { start := 0, current := 0, line := 1 }) := by
      unfold scan_space
      dsimp only
      rw [spaceEnd_stop h0 (by rw [hc0]; exact alphanum_not_space hc0an)]
      rw [if_pos rfl]
    have hsy : scan_symbol { start := 0, current := 0, line := 1 } data config =
        (none, { start := 0, current := 0, line := 1 }) := by
      unfold scan_symbol
      exact scan_symbol_list_none_of (fun s hs => hmna s (List.all_eq_true.mp hsym s hs))
    have hkwn : scan_keyword { start := 0, current := 0, line := 1 } data config =
        (none, { start := 0, current := 0, line := 1 }) := by
      unfold scan_keyword
      apply scan_keyword_list_none_of
      intro s hs
      rintro ⟨hm, hb⟩
      have hsk := List.all_eq_true.mp hkws s hs
      rcases hs0 : s.data with - | ⟨d0, ds⟩
      · unfold asciiAlphaKeyword at hsk
        rw [hs0] at hsk
        exact absurd hsk (by simp)
      · unfold asciiAlphaKeyword at hsk
        rw [hs0] at hsk
        simp only [Bool.and_eq_true, List.all_eq_true, decide_eq_true_eq] at hsk
        obtain ⟨-, hschars⟩ := hsk
        have hbl : strByteLen s = s.data.length := by
          unfold strByteLen
          exact byteLenAux_of_ascii (fun ch hch => (hschars ch (hs0 ▸ hch)).2)
        unfold Scanner.matches at hm
        obtain ⟨htake, hle⟩ := matchesFrom_spec hm
        dsimp only at htake hb
        have hsne : s.data ≠ [] := by rw [hs0]; simp
        have hmle : s.data.length ≤ data.source.length := by
          have h1 := hle hsne
          dsimp only at h1
          omega
        rw [hbl] at hb
        simp only [List.drop_zero] at htake
        rcases Nat.eq_or_lt_of_le hmle with heq | hlt
        · have hfull : s.data = data.source := by
            rw [← htake, heq, List.take_length]
          rw [hdata] at hfull
          have hext' := List.all_eq_true.mp (List.all_eq_true.mp hext k hk) s hs
          simp only [Bool.not_eq_eq_eq_not, Bool.not_true, Bool.and_eq_false_iff,
            decide_eq_false_iff_not] at hext'
          rcases hext' with hext' | hext'
          · apply hext'
            rw [hfull]
            exact ⟨[c], rfl⟩
          · apply hext'
            rw [hfull]
            simp
        · rcases hb with hb | hb
          · omega
          · have hgm : data.source.getD (0 + s.data.length) ' ' = data.source[s.data.length] := by
              rw [Nat.zero_add]
              exact List.getD_eq_getElem _ _ hlt
            rw [hgm] at hb
            simp only [hall _ (List.getElem_mem hlt)] at hb
            exact absurd hb (by simp)
    have hstr : scan_string { start := 0, current := 0, line := 1 } data =
        .ok (none, { start := 0, current := 0, line := 1 }) := by
      unfold scan_string
      simp only [hidx0]
      rw [if_neg (alphanum_ne_quote hc0an)]
    have hid : scan_identifier { start := 0, current := 0, line := 1 } data =
        .ok (some (.Identifier (String.mk (k.data ++ [c]))),
          { start := 0, current := k.data.length + 1, line := 1 }) := by
      unfold scan_identifier
      simp only [hidx0]
      rw [if_pos halpha0]
      unfold identLoop
      rw [identGo_all hall _ _ [] (by omega) (by omega)]
      rw [List.drop_zero, List.nil_append]
      rw [hlen, hdata]
    unfold scan_token
    rw [if_neg (by dsimp only; omega)]
    simp only [hcmt, hnl, hspc, hsy, hkwn, hstr, hid]
    rw [hk0]

/-- **C7.** For every configured keyword `k` and alphanumeric character `c`,
provided each comment marker and symbol starts with a non-alphanumeric
character, each keyword is a nonempty ASCII alphanumeric word starting with a
letter, and no keyword extends another configured keyword or symbol by
alphanumeric characters, running the scanner on the input `k` immediately
followed by `c` emits exactly one token: `Identifier(k ++ c)` spanning the
whole input, never `Keyword(k)` followed by another token. -/
theorem c7_keyword_boundary (config : ScannerConfig)
    (hsl : Option.all headNotAlphanum config.single_line_cmt = true)
    (hml : Option.all headNotAlphanum config.multi_line_cmt_start = true)
    (hsym : config.symbols.all headNotAlphanum = true)
    (hkws : config.keywords.all asciiAlphaKeyword = true)
    (hext : noKeywordExtension config.keywords = true)
    (k : String) (hk : k ∈ config.keywords) (c : Char) (hc : is_alphanum c = true)
    (source : String) (hsrc : source.data = k.data ++ [c])
    (data0 : ScannerData) (fuel : Nat) (hfuel : 2 ≤ fuel) :
    Scanner.runWith fuel source config data0 =
      some (.ok (({ data0 with source := source.data }).pushRow (k.data.length + 1) 0
        (.Identifier (String.mk (k.data ++ [c]))) 1)) := by
  unfold Scanner.runWith
  apply runLoop_mono config 2 _ _ _ fuel _ hfuel
  have hdata1 : ({ data0 with source := source.data } : ScannerData).source =
      k.data ++ [c] := by
    dsimp only
    exact hsrc
  have hscan := scan_token_keyword_boundary config hsl hml hsym hkws hext k hk c hc
    { data0 with source := source.data } hdata1
  have hadd : add_token { start := 0, current := k.data.length + 1, line := 1 }
      (.Identifier (String.mk (k.data ++ [c]))) { data0 with source := source.data } =
      .ok (({ start := k.data.length + 1, current := k.data.length + 1, line := 1 } : Scanner),
        ({ data0 with source := source.data } : ScannerData).pushRow (k.data.length + 1) 0
          (.Identifier (String.mk (k.data ++ [c]))) 1) := by
    unfold add_token
    rw [subM_of_le (Nat.zero_le _)]
    dsimp only
    rw [Nat.sub_zero]
    rfl
  have heof : scan_token
      ({ start := k.data.length + 1, current := k.data.length + 1, line := 1 } : Scanner)
      (({ data0 with source := source.data } : ScannerData).pushRow (k.data.length + 1) 0
        (.Identifier (String.mk (k.data ++ [c]))) 1) config =
      .ok (.Eof, { start := k.data.length + 1, current := k.data.length + 1, line := 1 }) := by
    apply scan_token_eof
    show (({ data0 with source := source.data } : ScannerData).pushRow (k.data.length + 1) 0
      (.Identifier (String.mk (k.data ++ [c]))) 1).source.length ≤ k.data.length + 1
    have : (({ data0 with source := source.data } : ScannerData).pushRow (k.data.length + 1) 0
        (.Identifier (String.mk (k.data ++ [c]))) 1).source = k.data ++ [c] := hdata1
    rw [this]
    simp
  show runLoop config (1 + 1) { start := 0, current := 0, line := 1 }
      { data0 with source := source.data } = _
  rw [runLoop]
  simp only [hscan]
  simp only [hadd]
  show runLoop config (0 + 1) _ _ = _
  rw [runLoop]
  simp only [heof]

/-- Witness for C7: the Lua keyword `while` followed by `x` scans as the single
identifier `whilex`. -/
theorem c7_keyword_boundary_witness :
    Scanner.runWith 2 "whilex" LUA_CONFIG {} =
      some (.ok (({ ({} : ScannerData) with source := "whilex".data }).pushRow
        ("while".data.length + 1) 0
        (.Identifier (String.mk ("while".data ++ ['x']))) 1)) :=
  c7_keyword_boundary LUA_CONFIG (by decide) (by decide) (by decide) (by decide)
    (by decide) "while" (by decide) 'x' (by decide) "whilex" (by decide) {} 2 (by decide)

/-- Characters that survive the reconstruction claim's removal of
"whitespace and newline runs". -/
def keepChar (c : Char) : Bool := !(is_space c || c == '\n')

/-- Concatenation, in order, of the source subsequences at each recorded
token's `[start, start + len)` range, as performed by the repository's tests. -/
def reconstructRows (source : List Char) : List Nat → List Nat → List Char
  | s :: ss, l :: ls => (source.drop s).take l ++ reconstructRows source ss ls
  | _, _ => []

theorem keepChar_of_alphanum {ch : Char} (h : is_alphanum ch = true) : keepChar ch = true := by
  unfold keepChar
  rw [alphanum_not_space h]
  have hne := alphanum_ne_newline h
  simp [hne]

theorem reconstructRows_append (source : List Char) :
    ∀ (ss ls : List Nat) (s l : Nat), ss.length = ls.length →
      reconstructRows source (ss ++ [s]) (ls ++ [l]) =
        reconstructRows source ss ls ++ (source.drop s).take l := by
  intro ss
  induction ss with
  | nil =>
    intro ls s l hl
    have hls : ls = [] := List.eq_nil_of_length_eq_zero hl.symm
    subst hls
    simp [reconstructRows]
  | cons a ss ih =>
    intro ls s l hl
    cases ls with
    | nil => simp at hl
    | cons b ls =>
      simp only [List.cons_append, reconstructRows, List.append_eq]
      rw [ih ls s l (by simpa using hl)]
      rw [List.append_assoc]

theorem filter_take_extend (p : Char → Bool) (l : List Char) (a b : Nat) (hab : a ≤ b) :
    (l.take b).filter p = (l.take a).filter p ++ ((l.drop a).take (b - a)).filter p := by
  conv_lhs => rw [show b = a + (b - a) from by omega]
  rw [List.take_add, List.filter_append]

theorem span_filter_all {p : Char → Bool} {source : List Char} {a b : Nat}
    (hb : b ≤ source.length)
    (hspan : ∀ i, a ≤ i → i < b → ∀ (h : i < source.length), p source[i] = true) :
    ((source.drop a).take (b - a)).filter p = (source.drop a).take (b - a) := by
  apply List.filter_eq_self.mpr
  intro ch hch
  obtain ⟨j, hj, hget⟩ := List.getElem_of_mem hch
  rw [List.length_take, List.length_drop] at hj
  have hj1 : j < b - a := lt_of_lt_of_le hj (min_le_left _ _)
  have hj2 : j < source.length - a := lt_of_lt_of_le hj (min_le_right _ _)
  have hi : a + j < source.length := by omega
  have hval : ch = source[a + j] := by
    rw [← hget, List.getElem_take, List.getElem_drop]
  rw [hval]
  exact hspan (a + j) (by omega) (by omega) hi

theorem span_filter_nil {p : Char → Bool} {source : List Char} {a b : Nat}
    (hb : b ≤ source.length)
    (hspan : ∀ i, a ≤ i → i < b → ∀ (h : i < source.length), p source[i] = false) :
    ((source.drop a).take (b - a)).filter p = [] := by
  rw [List.filter_eq_nil_iff]
  intro ch hch
  obtain ⟨j, hj, hget⟩ := List.getElem_of_mem hch
  rw [List.length_take, List.length_drop] at hj
  have hj1 : j < b - a := lt_of_lt_of_le hj (min_le_left _ _)
  have hj2 : j < source.length - a := lt_of_lt_of_le hj (min_le_right _ _)
  have hi : a + j < source.length := by omega
  have hval : ch = source[a + j] := by
    rw [← hget, List.getElem_take, List.getElem_drop]
  rw [hval]
  simp [hspan (a + j) (by omega) (by omega) hi]

theorem spaceEnd_gt_of_space {source : List Char} {cur : Nat} (h : cur < source.length)
    (hsp : is_space source[cur] = true) : cur < spaceEnd source cur := by
  unfold spaceEnd
  obtain ⟨gas, hgas⟩ : ∃ gas, source.length - cur = gas + 1 := ⟨source.length - cur - 1, by omega⟩
  rw [hgas]
  unfold spaceEndGo
  rw [dif_pos h, if_pos hsp]
  have := spaceEndGo_ge source gas (cur + 1)
  omega

theorem identGo_spans (source : List Char) :
    ∀ gas cur value i, cur ≤ i → i < (identGo source gas cur value).2 →
      ∀ (h : i < source.length), is_alphanum source[i] = true := by
  intro gas
  induction gas with
  | zero =>
    intro cur value i hge hlt
    unfold identGo at hlt
    dsimp only at hlt
    omega
  | succ gas ih =>
    intro cur value i hge hlt hi
    unfold identGo at hlt
    split at hlt
    · split at hlt
      · rcases Nat.eq_or_lt_of_le hge with heq | hgt
        · subst heq; assumption
        · exact ih (cur + 1) _ i hgt hlt hi
      · dsimp only at hlt; omega
    · dsimp only at hlt; omega

def c3data : ScannerData := {
  source := "\na".data,
  token_types := [.Identifier "a"],
  token_lines := [2],
  token_start := [0],
  token_len := [2] }

/-- **C3** (counterexample). On the two-character input `"\na"` with the
Lua-like configuration the run succeeds with a single `Identifier` row, but
the `NewLine` branch of the run loop never resets `start`, so that row's span
`[0, 2)` swallows the leading newline: concatenating the recorded spans
reproduces `"\na"`, not the source with whitespace and newline runs removed. -/
theorem c3_reconstruction_counterexample :
    Scanner.runWith 10 "\na" LUA_CONFIG {} = some (.ok c3data) ∧
    reconstructRows "\na".data c3data.token_start c3data.token_len ≠
      "\na".data.filter keepChar := by
  constructor
  · decide
  · decide

theorem scan_newline_some_char {st st' : Scanner} {data : ScannerData} {t : TokenType}
    (h : scan_newline st data = .ok (some t, st')) :
    ∃ (hl : st.current < data.source.length), data.source[st.current] = '\n' := by
  unfold scan_newline at h
  split at h
  · exact absurd h (by simp)
  · rename_i c heq
    split at h
    · rename_i hc
      have hlt := idxM_ok_lt heq
      have hget := idxM_ok_get heq
      refine ⟨hlt, ?_⟩
      rw [List.getD_eq_getElem _ _ hlt] at hget
      rw [hget, hc]
    · exact absurd h (by simp)

/-- The recorded rows, read left to right, tile the source from position `p`:
each row starts at or after the end of the previous one, every gap between
consecutive spans is whitespace-only, and so is the trailing gap. -/
def tiles (source : List Char) : Nat → List Nat → List Nat → Bool
  | p, s :: ss, l :: ls =>
    decide (p ≤ s) && ((source.drop p).take (s - p)).all is_space &&
      tiles source (s + l) ss ls
  | p, [], [] => (source.drop p).all is_space
  | _, _, _ => false

/-- The source from position `p` decomposed along the rows: the gap before
each row's span, the span itself, then the rest; what remains after the last
row is the trailing gap. -/
def withGaps (source : List Char) : Nat → List Nat → List Nat → List Char
  | p, s :: ss, l :: ls =>
    (source.drop p).take (s - p) ++ (source.drop s).take l ++
      withGaps source (s + l) ss ls
  | p, _, _ => source.drop p

/-- The same decomposition with every gap deleted: only the rows' spans
remain, in order. -/
def withoutGaps (source : List Char) : Nat → List Nat → List Nat → List Char
  | _, s :: ss, l :: ls => (source.drop s).take l ++ withoutGaps source (s + l) ss ls
  | _, _, _ => []

theorem withoutGaps_eq_reconstruct (source : List Char) :
    ∀ ss ls p, withoutGaps source p ss ls = reconstructRows source ss ls := by
  intro ss
  induction ss with
  | nil => intro ls p; cases ls <;> rfl
  | cons s ss ih =>
    intro ls p
    cases ls with
    | nil => rfl
    | cons l ls =>
      show (source.drop s).take l ++ withoutGaps source (s + l) ss ls = _
      rw [ih ls (s + l)]
      rfl

theorem withGaps_eq_drop (source : List Char) :
    ∀ ss ls p, tiles source p ss ls = true → withGaps source p ss ls = source.drop p := by
  intro ss
  induction ss with
  | nil =>
    intro ls p ht
    cases ls with
    | nil => rfl
    | cons l ls => exact absurd ht (by simp [tiles])
  | cons s ss ih =>
    intro ls p ht
    cases ls with
    | nil => exact absurd ht (by simp [tiles])
    | cons l ls =>
      simp only [tiles, Bool.and_eq_true, decide_eq_true_eq] at ht
      obtain ⟨⟨hps, -⟩, ht⟩ := ht
      show (source.drop p).take (s - p) ++ (source.drop s).take l ++
        withGaps source (s + l) ss ls = source.drop p
      rw [ih ls (s + l) ht, List.append_assoc]
      have h2 : (source.drop s).take l ++ source.drop (s + l) = source.drop s := by
        conv_rhs => rw [← List.take_append_drop l (source.drop s)]
        congr 1
        rw [List.drop_drop]
      rw [h2]
      conv_rhs => rw [← List.take_append_drop (s - p) (source.drop p)]
      congr 1
      rw [List.drop_drop]
      congr 1
      omega

theorem span_all {pr : Char → Bool} {source : List Char} {a b : Nat}
    (hspan : ∀ i, a ≤ i → i < b → ∀ (h : i < source.length), pr source[i] = true) :
    ((source.drop a).take (b - a)).all pr = true := by
  rw [List.all_eq_true]
  intro ch hch
  obtain ⟨j, hj, hget⟩ := List.getElem_of_mem hch
  rw [List.length_take, List.length_drop] at hj
  have hj1 : j < b - a := lt_of_lt_of_le hj (min_le_left _ _)
  have hj2 : j < source.length - a := lt_of_lt_of_le hj (min_le_right _ _)
  have hi : a + j < source.length := by omega
  have hval : ch = source[a + j] := by
    rw [← hget, List.getElem_take, List.getElem_drop]
  rw [hval]
  exact hspan (a + j) (by omega) (by omega) hi

theorem scan_number_dec_some_token {st st' : Scanner} {data : ScannerData} {t : TokenType}
    (h : scan_number_dec st data = .ok (some t, st')) : ∃ text, t = .NumberLiteral text := by
  unfold scan_number_dec at h
  dsimp only at h
  split at h
  · exact absurd h (by simp)
  · split at h
    · split at h
      · exact absurd h (by simp)
      · exact absurd h (by simp)
      · split at h
        · simp only [Except.ok.injEq, Prod.mk.injEq, Option.some.injEq] at h
          exact ⟨_, h.1.symm⟩
        · simp only [Except.ok.injEq, Prod.mk.injEq, Option.some.injEq] at h
          exact ⟨_, h.1.symm⟩
    · simp only [Except.ok.injEq, Prod.mk.injEq, Option.some.injEq] at h
      exact ⟨_, h.1.symm⟩

theorem scan_number_some_token {st st' : Scanner} {data : ScannerData} {t : TokenType}
    (h : scan_number st data = .ok (some t, st')) : ∃ text, t = .NumberLiteral text := by
  unfold scan_number at h
  split at h
  · exact absurd h (by simp)
  · split at h
    · split at h
      · exact absurd h (by simp)
      · split at h
        · split at h
          · exact absurd h (by simp)
          · split at h
            · unfold scan_hex_number at h
              split at h
              · exact absurd h (by simp)
              · simp only [Except.ok.injEq, Prod.mk.injEq, Option.some.injEq] at h
                exact ⟨_, h.1.symm⟩
            · split at h
              · unfold scan_binary_number at h
                split at h
                · exact absurd h (by simp)
                · simp only [Except.ok.injEq, Prod.mk.injEq, Option.some.injEq] at h
                  exact ⟨_, h.1.symm⟩
              · exact scan_number_dec_some_token h
        · exact scan_number_dec_some_token h
    · exact absurd h (by simp)

/-- Inversion of a successful `scan_token` below end of input, for any
configuration: `start` is preserved, the cursor never moves backwards, the
token is never `Eof`, a `NewLine` token certifies a newline character at the
cursor, and an `Ignore` token certifies that the consumed span is
whitespace-only. -/
theorem scan_token_ok_inv {st st1 : Scanner} {data : ScannerData} {config : ScannerConfig}
    {t : TokenType} (hlt : st.current < data.source.length)
    (h : scan_token st data config = .ok (t, st1)) :
    st1.start = st.start ∧ st.current ≤ st1.current ∧ t ≠ .Eof ∧
    (t = .NewLine → ∃ (hl : st.current < data.source.length),
      data.source[st.current] = '\n') ∧
    (t = .Ignore → ∀ i, st.current ≤ i → i < st1.current →
      ∀ (hi : i < data.source.length), is_space data.source[i] = true) := by
  unfold scan_token at h
  rw [if_neg (by omega)] at h
  split at h
  · exact absurd h (by simp)
  · rename_i t0 stc hcmt
    injection h with h
    injection h with ht hst
    subst ht
    subst hst
    obtain ⟨hstart, hlt2, text, htx⟩ := scan_comment_some hcmt
    subst htx
    exact ⟨hstart, by omega, by simp, fun he => by simp at he, fun he => by simp at he⟩
  · rename_i stc hcmt
    split at h
    · exact absurd h (by simp)
    · rename_i t0 st2 hnl
      have hstc : stc = st := by
        rcases scan_comment_none hcmt with h1 | ⟨-, -, hge⟩
        · exact h1
        · have := scan_newline_ok_lt hnl
          omega
      rw [hstc] at hnl
      injection h with h
      injection h with ht hst
      subst ht
      subst hst
      obtain ⟨ht0, hst2⟩ := scan_newline_some hnl
      subst ht0
      obtain ⟨hl, hch⟩ := scan_newline_some_char hnl
      rw [hst2]
      exact ⟨rfl, by dsimp only; omega, by simp, fun _ => ⟨hl, hch⟩,
        fun he => by simp at he⟩
    · rename_i st2 hnl
      have hstc : stc = st := by
        rcases scan_comment_none hcmt with h1 | ⟨-, -, hge⟩
        · exact h1
        · have := scan_newline_ok_lt hnl
          omega
      have hst2 : st2 = st := (scan_newline_none hnl).trans hstc
      split at h
      · rename_i t0 st3 hsp
        rw [hst2] at hsp
        injection h with h
        injection h with ht hst
        subst ht
        subst hst
        obtain ⟨ht0, hst3, hlt3⟩ := scan_space_some hsp
        subst ht0
        rw [hst3]
        refine ⟨rfl, by dsimp only; omega, by simp, fun he => by simp at he, fun _ => ?_⟩
        intro i hge hilt hi
        dsimp only at hilt
        exact spaceEnd_spaces data.source st.current i hge hilt hi
      · rename_i st3 hsp
        have hst3 : st3 = st := (scan_space_none hsp).trans hst2
        split at h
        · rename_i t0 st4 hsym
          rw [hst3] at hsym
          injection h with h
          injection h with ht hst
          subst ht
          subst hst
          obtain ⟨s, -, -, hts, hst4⟩ := scan_symbol_list_some hsym
          subst hts
          rw [hst4]
          exact ⟨rfl, by dsimp only; omega, by simp, fun he => by simp at he,
            fun he => by simp at he⟩
        · rename_i st4 hsym
          have hst4 : st4 = st := (scan_symbol_list_none hsym).trans hst3
          split at h
          · rename_i t0 st5 hkw
            rw [hst4] at hkw
            injection h with h
            injection h with ht hst
            subst ht
            subst hst
            obtain ⟨s, -, -, -, hts, hst5⟩ := scan_keyword_list_some hkw
            subst hts
            rw [hst5]
            exact ⟨rfl, by dsimp only; omega, by simp, fun he => by simp at he,
              fun he => by simp at he⟩
          · rename_i st5 hkw
            have hst5 : st5 = st := (scan_keyword_list_none hkw).trans hst4
            split at h
            · exact absurd h (by simp)
            · rename_i t0 st6 hstr
              rw [hst5] at hstr
              injection h with h
              injection h with ht hst
              subst ht
              subst hst
              obtain ⟨value, cur, line, hloop, hts, hst6, -, -⟩ := scan_string_some hstr
              subst hts
              have hcl := scan_string_loop_closed data.source _ _ _ _ _ _ _ hloop
              rw [hst6]
              exact ⟨rfl, by dsimp only; omega, by simp, fun he => by simp at he,
                fun he => by simp at he⟩
            · rename_i st6 hstr
              have hst6 : st6 = st := ((scan_string_none hstr).1).trans hst5
              split at h
              · exact absurd h (by simp)
              · rename_i t0 st7 hid
                rw [hst6] at hid
                injection h with h
                injection h with ht hst
                subst ht
                subst hst
                obtain ⟨hts, hst7, -, -⟩ := scan_identifier_some hid
                subst hts
                rw [hst7]
                refine ⟨rfl, ?_, by simp, fun he => by simp at he, fun he => by simp at he⟩
                dsimp only
                have := identLoop_ge data.source st.current []
                omega
              · rename_i st7 hid
                have hst7 : st7 = st := (scan_identifier_none hid).trans hst6
                split at h
                · exact absurd h (by simp)
                · rename_i t0 st8 hnum
                  rw [hst7] at hnum
                  injection h with h
                  injection h with ht hst
                  subst ht
                  subst hst
                  obtain ⟨hstart, -, hlt8, -⟩ := scan_number_some hnum
                  obtain ⟨text, htx⟩ := scan_number_some_token hnum
                  subst htx
                  exact ⟨hstart, by omega, by simp, fun he => by simp at he,
                    fun he => by simp at he⟩
                · exact absurd h (by simp)

/-- Invariant form of the reconstruction property: starting an iteration with
`start = current`, a whitespace-only gap `[p, current)` behind the cursor and
a newline-free source, a successful run appends rows that tile the source
from `p` with whitespace-only gaps. -/
theorem runLoop_tiles (config : ScannerConfig) :
    ∀ n st data d' p,
      '\n' ∉ data.source →
      st.start = st.current →
      p ≤ st.current →
      ((data.source.drop p).take (st.current - p)).all is_space = true →
      runLoop config n st data = some (.ok d') →
      ∃ ss ls, d'.token_start = data.token_start ++ ss ∧
        d'.token_len = data.token_len ++ ls ∧
        tiles data.source p ss ls = true := by
  intro n
  induction n with
  | zero =>
    intro st data d' p _ _ _ _ h
    simp [runLoop] at h
  | succ n ih =>
    intro st data d' p hnl hss hp hgap h
    by_cases hend : data.source.length ≤ st.current
    · rw [runLoop] at h
      simp only [scan_token_eof hend] at h
      injection h with h
      injection h with h
      subst h
      refine ⟨[], [], (List.append_nil _).symm, (List.append_nil _).symm, ?_⟩
      show (data.source.drop p).all is_space = true
      have htk : (data.source.drop p).take (st.current - p) = data.source.drop p :=
        List.take_of_length_le (by rw [List.length_drop]; omega)
      rw [htk] at hgap
      exact hgap
    · push_neg at hend
      rcases hscan : scan_token st data config with f | ⟨t, st1⟩
      · rcases f with ⟨e, d⟩ | d
        · rw [runLoop] at h
          simp only [hscan] at h
          simp at h
        · rw [runLoop] at h
          simp only [hscan] at h
          simp at h
      · obtain ⟨hst1s, hadv, hne, hnlc, hign⟩ := scan_token_ok_inv hend hscan
        by_cases hti : t = .Ignore
        · subst hti
          have hstep : runLoop config (n + 1) st data =
              runLoop config n { st1 with start := st1.current } data := by
            rw [runLoop]
            simp only [hscan]
          rw [hstep] at h
          refine ih { st1 with start := st1.current } data d' p hnl rfl
            (le_trans hp hadv) ?_ h
          show ((data.source.drop p).take (st1.current - p)).all is_space = true
          have hsplit : (data.source.drop p).take (st1.current - p) =
              (data.source.drop p).take (st.current - p) ++
              ((data.source.drop st.current).take (st1.current - st.current)) := by
            rw [show st1.current - p = (st.current - p) + (st1.current - st.current)
              from by omega]
            rw [List.take_add, List.drop_drop]
            first
            | rw [show st.current - p + p = st.current from by omega]
            | rw [show p + (st.current - p) = st.current from by omega]
          rw [hsplit, List.all_append, Bool.and_eq_true]
          exact ⟨hgap, span_all (hign rfl)⟩
        · by_cases htn : t = .NewLine
          · subst htn
            obtain ⟨hl, hch⟩ := hnlc rfl
            exact absurd (hch ▸ List.getElem_mem hl) hnl
          · have hsub : st1.start ≤ st1.current := by
              rw [hst1s, hss]
              omega
            have hadd : add_token st1 t data = .ok ({ st1 with start := st1.current },
                data.pushRow (st1.current - st1.start) st1.start t st1.line) := by
              unfold add_token
              rw [subM_of_le hsub]
              rfl
            have hstep : runLoop config (n + 1) st data =
                runLoop config n { st1 with start := st1.current }
                  (data.pushRow (st1.current - st1.start) st1.start t st1.line) := by
              rw [runLoop]
              simp only [hscan]
              cases t <;>
                first
                | exact absurd rfl hne
                | exact absurd rfl hti
                | exact absurd rfl htn
                | simp only [hadd]
            rw [hstep] at h
            obtain ⟨ss, ls, hts, htl, htiles⟩ := ih { st1 with start := st1.current }
              (data.pushRow (st1.current - st1.start) st1.start t st1.line) d' st1.current
              hnl rfl (le_refl _) (by simp) h
            refine ⟨st1.start :: ss, (st1.current - st1.start) :: ls, ?_, ?_, ?_⟩
            · rw [hts]
              show (data.token_start ++ [st1.start]) ++ ss = _
              rw [List.append_assoc]
              rfl
            · rw [htl]
              show (data.token_len ++ [st1.current - st1.start]) ++ ls = _
              rw [List.append_assoc]
              rfl
            · simp only [tiles, Bool.and_eq_true, decide_eq_true_eq]
              rw [hst1s, hss]
              refine ⟨⟨hp, hgap⟩, ?_⟩
              rw [show st.current + (st1.current - st.current) = st1.current from by omega]
              exact htiles

/-- **C3** (amended). For every configuration and every source text that
contains no newline character, whenever `Scanner::run` succeeds the recorded
rows decompose the decoded source into alternating whitespace-only gaps and
token spans (`withGaps` rebuilds the source, `tiles` certifies the ordering
and that every gap — leading, inter-token and trailing — is whitespace-only),
and concatenating in order the source subsequences over each emitted token's
`[start, start + length)` range (`reconstructRows`) is exactly that
decomposition with the whitespace gaps deleted: the source with all
whitespace runs removed, token content — comment markers and comment, string,
number and symbol text — retained verbatim.  The unconditional original claim
is refuted by `c3_reconstruction_counterexample`: a `NewLine` token never
resets `start`, so the next token's span absorbs the newline. -/
theorem c3_reconstruction_amended (config : ScannerConfig) (source : String)
    (hnl : '\n' ∉ source.data) (fuel : Nat) (d' : ScannerData)
    (hrun : Scanner.runWith fuel source config {} = some (.ok d')) :
    withGaps source.data 0 d'.token_start d'.token_len = source.data ∧
    tiles source.data 0 d'.token_start d'.token_len = true ∧
    reconstructRows source.data d'.token_start d'.token_len =
      withoutGaps source.data 0 d'.token_start d'.token_len := by
  unfold Scanner.runWith at hrun
  obtain ⟨ss, ls, hts, htl, htiles⟩ := runLoop_tiles config fuel
    { start := 0, current := 0, line := 1 }
    { ({} : ScannerData) with source := source.data } d' 0 hnl rfl (le_refl 0)
    (by simp) hrun
  rw [List.nil_append] at hts htl
  rw [hts, htl]
  refine ⟨?_, htiles, (withoutGaps_eq_reconstruct source.data ss ls 0).symm⟩
  rw [withGaps_eq_drop source.data ss ls 0 htiles, List.drop_zero]

def c3wdata : ScannerData := {
  source := "s = \"a b\" + 12 -- x y".data,
  token_types := [.Identifier "s", .Symbol "=", .StringLiteral "a b", .Symbol "+",
    .NumberLiteral "12", .Comment "-- x y"],
  token_lines := [1, 1, 1, 1, 1, 2],
  token_start := [0, 2, 4, 10, 12, 15],
  token_len := [1, 1, 5, 1, 2, 7] }

/-- Witness for the amended C3: under the full Lua configuration, the
newline-free input `s = "a b" + 12 -- x y` (identifier, symbols, a string
literal and a comment both containing spaces, a number) scans into six rows
whose spans tile the source with single-space gaps, and whose concatenation
is the source with exactly those gaps removed. -/
theorem c3_reconstruction_amended_witness :
    Scanner.runWith 25 "s = \"a b\" + 12 -- x y" LUA_CONFIG {} = some (.ok c3wdata) ∧
    withGaps "s = \"a b\" + 12 -- x y".data 0 c3wdata.token_start c3wdata.token_len =
      "s = \"a b\" + 12 -- x y".data ∧
    tiles "s = \"a b\" + 12 -- x y".data 0 c3wdata.token_start c3wdata.token_len = true ∧
    reconstructRows "s = \"a b\" + 12 -- x y".data c3wdata.token_start c3wdata.token_len =
      withoutGaps "s = \"a b\" + 12 -- x y".data 0 c3wdata.token_start c3wdata.token_len :=
  ⟨by decide, c3_reconstruction_amended LUA_CONFIG "s = \"a b\" + 12 -- x y" (by decide)
    25 c3wdata (by decide)⟩
